import Mathlib

/-!
# Verification of `cryptokit/transaction.py`

A shallow embedding of the transaction codec in `src/cryptokit/transaction.py`:
the `Transaction` parse (`disassemble`) / serialize (`assemble`) pair, the
memoized `hash` accessor, `is_coinbase`, and `Input.coinbase`, together with
theorems settling the specification claims.

Byte buffers are `List Nat` (each element a byte value `< 256` for genuine
buffers).  Machine integers are `Nat` with explicit bounds where overflow
matters.  Fallible operations (Python exceptions) return `Except`/`Option`.

The helper class `BitcoinEncoding` (providing `funpack`, `varlen_decode`,
`varlen_encode`) and `hashlib.sha256` are code of this repository or its
dependencies that is not under `src/`; those definitions are modelled from the
spec, as marked in their doc comments.
-/

deriving instance DecidableEq for Except

namespace Cryptokit

/-- Error kinds of the parse call.  `TruncatedInput` models `struct.error` /
short-read failures, `MalformedInput` models the trailing-data
`AssertionError`, and `typeError` models the `TypeError` raised when the raw
buffer is `None`. -/
inductive Err where
  | TruncatedInput
  | MalformedInput
  | typeError
deriving DecidableEq, Repr

/-- Little-endian byte list of width `w` for value `v` (the byte content of
`struct.pack` for an in-range value). -/
def leBytes : Nat → Nat → List Nat
  | 0, _ => []
  | w + 1, v => v % 256 :: leBytes w (v / 256)

/-- Little-endian value of a byte list (the value computed by
`struct.unpack('<…')`). -/
def unpackLE : List Nat → Nat
  | [] => 0
  | b :: bs => b + 256 * unpackLE bs

/-- Modelled from the spec: `BitcoinEncoding.funpack` / the PrimitiveCodec
contract (§4.2), which is not under `src/`.  Unpacks a fixed-width
little-endian unsigned integer; "Unpacking with insufficient remaining bytes
fails with `TruncatedInput`" (`struct.unpack` demands an exact-length
buffer). -/
def funpack (w : Nat) (bs : List Nat) : Except Err Nat :=
  if bs.length = w then .ok (unpackLE bs) else .error .TruncatedInput

/-- Modelled from the spec: fixed-width little-endian `struct.pack` (§4.2),
not under `src/`.  `struct.pack` raises for an out-of-range value. -/
def packFW (w v : Nat) : Option (List Nat) :=
  if v < 256 ^ w then some (leBytes w v) else none

/-- Modelled from the spec (§4.1): `BitcoinEncoding.varlen_decode`, not under
`src/`.  "Decode must branch on the leading marker byte and consume the
corresponding width; decoding must fail with `TruncatedInput` if fewer bytes
remain than the width demands." -/
def varlen_decode (bs : List Nat) : Except Err (Nat × List Nat) :=
  match bs with
  | [] => .error .TruncatedInput
  | m :: rest =>
    if m = 0xFD then
      match funpack 2 (rest.take 2) with
      | .error e => .error e
      | .ok v => .ok (v, rest.drop 2)
    else if m = 0xFE then
      match funpack 4 (rest.take 4) with
      | .error e => .error e
      | .ok v => .ok (v, rest.drop 4)
    else if m = 0xFF then
      match funpack 8 (rest.take 8) with
      | .error e => .error e
      | .ok v => .ok (v, rest.drop 8)
    else .ok (m, rest)

/-- Modelled from the spec (§4.1): `BitcoinEncoding.varlen_encode`, not under
`src/`.  "values < 0xFD encode as a single byte equal to the value.  Values in
[0xFD, 0xFFFF] encode as marker byte 0xFD followed by 2 little-endian bytes.
Values in [0x10000, 0xFFFFFFFF] encode as marker 0xFE followed by 4
little-endian bytes.  Larger values encode as marker 0xFF followed by 8
little-endian bytes" (the final 8-byte `struct.pack` raises for values that do
not fit 64 bits). -/
def varlen_encode (v : Nat) : Option (List Nat) :=
  if v < 0xFD then some [v]
  else if v ≤ 0xFFFF then (packFW 2 v).map (0xFD :: ·)
  else if v ≤ 0xFFFFFFFF then (packFW 4 v).map (0xFE :: ·)
  else (packFW 8 v).map (0xFF :: ·)

/-! ## SHA-256

Modelled from the spec (§4.4): the double hash is "SHA-256 of the SHA-256
digest" computed by `hashlib.sha256`, which is outside `src/`.  The functions
below are SHA-256 per FIPS 180-4, written with structural recursion only so
that concrete hashes evaluate inside the kernel. -/

/-- Reduce to a 32-bit word. -/
def w32 (x : Nat) : Nat := x % 4294967296

/-- 32-bit right rotation. -/
def rotr (n x : Nat) : Nat := w32 (x / 2 ^ n + x % 2 ^ n * 2 ^ (32 - n))

def shaCh (x y z : Nat) : Nat := (x &&& y) ^^^ ((x ^^^ 4294967295) &&& z)

def shaMaj (x y z : Nat) : Nat := (x &&& y) ^^^ (x &&& z) ^^^ (y &&& z)

def bigSigma0 (x : Nat) : Nat := rotr 2 x ^^^ rotr 13 x ^^^ rotr 22 x

def bigSigma1 (x : Nat) : Nat := rotr 6 x ^^^ rotr 11 x ^^^ rotr 25 x

def smallSigma0 (x : Nat) : Nat := rotr 7 x ^^^ rotr 18 x ^^^ (x >>> 3)

def smallSigma1 (x : Nat) : Nat := rotr 17 x ^^^ rotr 19 x ^^^ (x >>> 10)

/-- The 64 SHA-256 round constants (FIPS 180-4, written in decimal). -/
def shaK : List Nat :=
  [1116352408, 1899447441, 3049323471, 3921009573, 961987163,
   1508970993, 2453635748, 2870763221, 3624381080, 310598401,
   607225278, 1426881987, 1925078388, 2162078206, 2614888103,
   3248222580, 3835390401, 4022224774, 264347078, 604807628,
   770255983, 1249150122, 1555081692, 1996064986, 2554220882,
   2821834349, 2952996808, 3210313671, 3336571891, 3584528711,
   113926993, 338241895, 666307205, 773529912, 1294757372,
   1396182291, 1695183700, 1986661051, 2177026350, 2456956037,
   2730485921, 2820302411, 3259730800, 3345764771, 3516065817,
   3600352804, 4094571909, 275423344, 430227734, 506948616,
   659060556, 883997877, 958139571, 1322822218, 1537002063,
   1747873779, 1955562222, 2024104815, 2227730452, 2361852424,
   2428436474, 2756734187, 3204031479, 3329325298]

/-- The SHA-256 initial hash value (FIPS 180-4, written in decimal). -/
def shaH0 : List Nat :=
  [1779033703, 3144134277, 1013904242, 2773480762,
   1359893119, 2600822924, 528734635, 1541459225]

/-- Big-endian byte list of width `w` for value `v`. -/
def beBytes (w v : Nat) : List Nat := (leBytes w v).reverse

/-- Big-endian value of a byte list. -/
def beWord (l : List Nat) : Nat := l.foldl (fun acc b => acc * 256 + b) 0

/-- The sixteen 32-bit big-endian words of a 64-byte block. -/
def toWords (block : List Nat) : List Nat :=
  (List.range 16).map (fun i => beWord ((block.drop (4 * i)).take 4))

/-- Extend the 16 message-schedule words to 64 (adds `n` more words). -/
def extendW : Nat → List Nat → List Nat
  | 0, ws => ws
  | n + 1, ws =>
    extendW n (ws ++ [w32 (smallSigma1 (ws.getD (ws.length - 2) 0) +
                           ws.getD (ws.length - 7) 0 +
                           smallSigma0 (ws.getD (ws.length - 15) 0) +
                           ws.getD (ws.length - 16) 0)])

/-- One SHA-256 round: the state is the word list `[a,b,c,d,e,f,g,h]`,
`kw` is the pair of round constant and schedule word. -/
def shaRound (st : List Nat) (kw : Nat × Nat) : List Nat :=
  match st with
  | [a, b, c, d, e, f, g, h] =>
    let t1 := w32 (h + bigSigma1 e + shaCh e f g + kw.1 + kw.2)
    let t2 := w32 (bigSigma0 a + shaMaj a b c)
    [w32 (t1 + t2), a, b, c, w32 (d + t1), e, f, g]
  | st => st

/-- Compress one 64-byte block into the running hash (eight words). -/
def shaCompress (h : List Nat) (block : List Nat) : List Nat :=
  let ws := extendW 48 (toWords block)
  let st := (shaK.zip ws).foldl shaRound h
  (h.zip st).map (fun p => w32 (p.1 + p.2))

/-- Split a padded message into 64-byte blocks (structural recursion on a
fuel argument so the kernel can evaluate it; the fuel never runs out because
`drop 64` shortens a nonempty list). -/
def toBlocksAux : Nat → List Nat → List (List Nat)
  | _, [] => []
  | 0, _ => []
  | fuel + 1, l => l.take 64 :: toBlocksAux fuel (l.drop 64)

def toBlocks (l : List Nat) : List (List Nat) := toBlocksAux l.length l

/-- SHA-256 of a byte list, as a 32-byte digest. -/
def sha256 (msg : List Nat) : List Nat :=
  let padded := msg ++ 128 :: List.replicate ((119 - msg.length % 64) % 64) 0
                    ++ beBytes 8 (8 * msg.length)
  let hfinal := (toBlocks padded).foldl shaCompress shaH0
  hfinal.foldr (fun w acc => beBytes 4 w ++ acc) []

/-- The double hash: SHA-256 applied twice (spec §4.4, `RecordHasher`). -/
def dsha (bs : List Nat) : List Nat := sha256 (sha256 bs)

example : varlen_encode 5 = some [5] := by decide
example : varlen_encode 0xFD = some [0xFD, 0xFD, 0] := by decide
example : varlen_encode 0x10000 = some [0xFE, 0, 0, 1, 0] := by decide
example : varlen_decode [0xFD, 5, 0, 9] = .ok (5, [9]) := by decide
example : varlen_decode [0xFD, 5] = .error .TruncatedInput := by decide

/-! ## Data model (`Input`, `Output`, `Transaction`) -/

/-- `Input` namedtuple: `['prevout_hash', 'prevout_idx', 'script_sig',
'seqno']`. -/
structure Input where
  prevout_hash : List Nat
  prevout_idx : Nat
  script_sig : List Nat
  seqno : Nat
deriving DecidableEq, Repr

/-- `Output` namedtuple: `['amount', 'script_pub_key']`. -/
structure Output where
  amount : Nat
  script_pub_key : List Nat
deriving DecidableEq, Repr

/-- `Transaction._nullprev = b'\0' * 32`. -/
def nullprev : List Nat := List.replicate 32 0

/-- The `while height:` loop of `Input.coinbase`: repeated `divmod(height,
256)` collecting remainder bytes, little-endian, empty for `0`. -/
def encoded_height (h : Nat) : List Nat :=
  if h = 0 then [] else h % 256 :: encoded_height (h / 256)
termination_by h
decreasing_by exact Nat.div_lt_self (Nat.pos_of_ne_zero (by assumption)) (by norm_num)

/-- `Input.coinbase(height, extra_script_sig)`: the scriptSig is
`pack("B", length) + encoded_height + extra_script_sig` (each remainder byte
of the loop is `< 256` by construction; the single length byte is produced by
`pack("B", …)`, which raises when the byte count exceeds 255, hence the
`Option`). -/
def Input.coinbase (height : Nat) (extra_script_sig : List Nat) : Option Input :=
  let eh := encoded_height height
  match packFW 1 eh.length with
  | none => none
  | some lb => some ⟨nullprev, 4294967295, lb ++ eh ++ extra_script_sig, 0⟩

/-- The mutable `Transaction` object state: `_raw`, `inputs`, `outputs`,
`locktime`, `fees`, `version`, `_hash` (source `__init__`). -/
structure Transaction where
  _raw : Option (List Nat)
  inputs : List Input
  outputs : List Output
  locktime : Nat
  fees : Option Nat
  version : Nat
  _hash : Option (List Nat)
deriving DecidableEq, Repr

/-- `Transaction.__init__(raw, fees)` (with a buffer passed for `raw`;
`bytes(None)` would raise). -/
def Transaction.init (raw : List Nat) (fees : Option Nat) : Transaction :=
  { _raw := some raw, inputs := [], outputs := [], locktime := 0,
    fees := fees, version := 1, _hash := none }

/-! ## Parsing (`Transaction.disassemble`) -/

/-- The input-parsing loop of `disassemble` (source lines 81–98).  `items` is
the current `self.inputs` (the loop appends one `Input` per iteration, so on
failure the inputs appended so far persist); the returned byte list is the
parse cursor, and the `Option Err` is `none` on success. -/
def parse_inputs (items : List Input) (n : Nat) (data : List Nat) :
    List Input × List Nat × Option Err :=
  match n with
  | 0 => (items, data, none)
  | n + 1 =>
    -- prevout_hash = data[:32]; prevout_idx = funpack('<L', data[32:36])
    let prevout_hash := data.take 32
    match funpack 4 ((data.drop 32).take 4) with
    | .error e => (items, data, some e)
    | .ok prevout_idx =>
      -- ss_len, data = varlen_decode(data[36:])
      match varlen_decode (data.drop 36) with
      | .error e => (items, data, some e)
      | .ok (ss_len, d1) =>
        -- script_sig = data[:ss_len]; seqno = funpack('<L', data[ss_len:ss_len+4])
        let script_sig := d1.take ss_len
        match funpack 4 ((d1.drop ss_len).take 4) with
        | .error e => (items, d1, some e)
        | .ok seqno =>
          parse_inputs (items ++ [⟨prevout_hash, prevout_idx, script_sig, seqno⟩])
            n (d1.drop (ss_len + 4))

/-- The output-parsing loop of `disassemble` (source lines 102–109).  Note the
loop body has no read after the scriptPubKey slice, so an over-long declared
length yields a short script and an empty cursor rather than an immediate
error. -/
def parse_outputs (items : List Output) (n : Nat) (data : List Nat) :
    List Output × List Nat × Option Err :=
  match n with
  | 0 => (items, data, none)
  | n + 1 =>
    -- amount = funpack('<Q', data[:8])
    match funpack 8 (data.take 8) with
    | .error e => (items, data, some e)
    | .ok amount =>
      -- ps_len, data = varlen_decode(data[8:])
      match varlen_decode (data.drop 8) with
      | .error e => (items, data, some e)
      | .ok (ps_len, d1) =>
        -- pk_script = data[:ps_len]; data = data[ps_len:]
        parse_outputs (items ++ [⟨amount, d1.take ps_len⟩]) n (d1.drop ps_len)

/-- `Transaction.disassemble(raw, dump_raw, fees)` (source lines 62–119).
Python exceptions leave the partially mutated object behind, so the model
returns the post-state together with the optional error.  `if raw:` and
`if fees:` are Python truthiness tests: an empty buffer or `None`/`0` fees
leave the old value in place (`fees = none` models a falsy argument). -/
def Transaction.disassemble (t : Transaction) (raw : List Nat)
    (dump_raw : Bool) (fees : Option Nat) : Transaction × Option Err :=
  let t := match fees with
           | some f => { t with fees := some f }
           | none => t
  let t := if raw = [] then t else { t with _raw := some raw }
  match t._raw with
  | none => (t, some Err.typeError)  -- data[:4] on None raises TypeError
  | some data =>
    -- self.version = self.funpack('<L', data[:4])
    match funpack 4 (data.take 4) with
    | .error e => (t, some e)
    | .ok version =>
    let t := { t with version := version }
    -- input_count, data = self.varlen_decode(data[4:])
    match varlen_decode (data.drop 4) with
    | .error e => (t, some e)
    | .ok (input_count, d1) =>
    -- self.inputs = []; loop
    match parse_inputs [] input_count d1 with
    | (items, _, some e) => ({ t with inputs := items }, some e)
    | (items, d2, none) =>
    let t := { t with inputs := items }
    -- output_count, data = self.varlen_decode(data)
    match varlen_decode d2 with
    | .error e => (t, some e)
    | .ok (output_count, d3) =>
    -- self.outputs = []; loop
    match parse_outputs [] output_count d3 with
    | (oitems, _, some e) => ({ t with outputs := oitems }, some e)
    | (oitems, d4, none) =>
    let t := { t with outputs := oitems }
    -- self.locktime = self.funpack('<L', data[:4])
    match funpack 4 (d4.take 4) with
    | .error e => (t, some e)
    | .ok lt =>
    let t := { t with locktime := lt, _hash := none }
    -- assert len(data) == 4  (trailing-data check), then dump_raw
    if d4.length = 4 then
      (if dump_raw then { t with _raw := none } else t, none)
    else (t, some Err.MalformedInput)

/-- `Transaction.is_coinbase`: `self.inputs[0].prevout_hash == self._nullprev`
(`inputs[0]` raises `IndexError` on an empty list, hence the `Option`). -/
def Transaction.is_coinbase (t : Transaction) : Option Bool :=
  match t.inputs with
  | [] => none
  | i :: _ => some (decide (i.prevout_hash = nullprev))

/-! ## Serialization (`Transaction.assemble`) -/

/-- The input-serializing loop of `assemble` (source lines 138–144): `data`
is the accumulated buffer, `sp` the latest `split_point` (recorded just
before each input's scriptSig bytes, so the last iteration wins). -/
def assemble_inputs (inputs : List Input) (data : List Nat) (sp : Option Nat) :
    Option (List Nat × Option Nat) :=
  match inputs with
  | [] => some (data, sp)
  | i :: rest =>
    match packFW 4 i.prevout_idx, varlen_encode i.script_sig.length,
          packFW 4 i.seqno with
    | some idx, some vl, some sq =>
      let d1 := data ++ i.prevout_hash ++ idx ++ vl
      assemble_inputs rest (d1 ++ i.script_sig ++ sq) (some d1.length)
    | _, _, _ => none

/-- The output-serializing loop of `assemble` (source lines 147–150). -/
def assemble_outputs (outputs : List Output) (data : List Nat) :
    Option (List Nat) :=
  match outputs with
  | [] => some data
  | o :: rest =>
    match packFW 8 o.amount, varlen_encode o.script_pub_key.length with
    | some am, some vl =>
      assemble_outputs rest (data ++ am ++ vl ++ o.script_pub_key)
    | _, _ => none

/-- The pure body of `assemble` (source lines 134–152): the full serialized
buffer and the final split point. -/
def assembleCore (version : Nat) (inputs : List Input) (outputs : List Output)
    (locktime : Nat) : Option (List Nat × Option Nat) :=
  match packFW 4 version with
  | none => none
  | some vb =>
  match varlen_encode inputs.length with
  | none => none
  | some ic =>
  match assemble_inputs inputs (vb ++ ic) none with
  | none => none
  | some (d1, sp) =>
  match varlen_encode outputs.length with
  | none => none
  | some oc =>
  match assemble_outputs outputs (d1 ++ oc) with
  | none => none
  | some d2 =>
  match packFW 4 locktime with
  | none => none
  | some lb => some (d2 ++ lb, sp)

/-- `Transaction.assemble(split=False)`: serialize, cache the buffer,
invalidate the cached hash, return the buffer. -/
def Transaction.assemble (t : Transaction) : Option (Transaction × List Nat) :=
  match assembleCore t.version t.inputs t.outputs t.locktime with
  | none => none
  | some (data, _) => some ({ t with _raw := some data, _hash := none }, data)

/-- `Transaction.assemble(split=True)`: as `assemble`, but the result is
`(data[:split_point], data[split_point:])`.  With no inputs `split_point`
stays `None` and Python `None` slicing returns the whole buffer twice. -/
def Transaction.assembleSplit (t : Transaction) :
    Option (Transaction × List Nat × List Nat) :=
  match assembleCore t.version t.inputs t.outputs t.locktime with
  | none => none
  | some (data, sp) =>
    let t1 := { t with _raw := some data, _hash := none }
    match sp with
    | none => some (t1, data, data)
    | some p => some (t1, data.take p, data.drop p)

/-- The `Transaction.hash` property (source lines 167–175): memoized double
SHA-256 of `self._raw` (the raw cache is used directly, with no
re-serialization; `sha256(None)` would raise `TypeError`).  The
`byteorder is 'big'` reversal branch is dead on a little-endian host, which
is what the spec's §9 note fixes as the reference behavior.  Returns the
value together with the post-state. -/
def Transaction.hashAccess (t : Transaction) : Option (List Nat × Transaction) :=
  match t._hash with
  | some h => some (h, t)
  | none =>
    match t._raw with
    | none => none
    | some raw =>
      let h := dsha raw
      some (h, { t with _hash := some h })

/-! ## Lemmas about the byte primitives -/

@[simp] theorem length_leBytes (w v : Nat) : (leBytes w v).length = w := by
  induction w generalizing v with
  | zero => rfl
  | succ w ih => simp [leBytes, ih]

theorem unpackLE_leBytes {w v : Nat} (h : v < 256 ^ w) :
    unpackLE (leBytes w v) = v := by
  induction w generalizing v with
  | zero =>
    norm_num at h
    simp [leBytes, unpackLE, h]
  | succ w ih =>
    have hv : v / 256 < 256 ^ w := by
      rw [Nat.div_lt_iff_lt_mul (by norm_num)]
      calc v < 256 ^ (w + 1) := h
        _ = 256 ^ w * 256 := by ring
    simp only [leBytes, unpackLE, ih hv]
    omega

theorem funpack_ok {w : Nat} {bs : List Nat} (h : bs.length = w) :
    funpack w bs = .ok (unpackLE bs) := by
  simp [funpack, h]

theorem funpack_err {w : Nat} {bs : List Nat} (h : bs.length ≠ w) :
    funpack w bs = .error .TruncatedInput := by
  simp [funpack, h]

theorem funpack_leBytes {w v : Nat} (hv : v < 256 ^ w) :
    funpack w (leBytes w v) = .ok v := by
  rw [funpack_ok (length_leBytes w v), unpackLE_leBytes hv]

theorem packFW_eq {w v : Nat} {bs : List Nat} (h : packFW w v = some bs) :
    bs = leBytes w v ∧ v < 256 ^ w := by
  unfold packFW at h
  split at h
  · exact ⟨(Option.some.injEq _ _ ▸ h).symm, by assumption⟩
  · exact absurd h (by simp)

/-! ## Lemmas about the varint codec -/

/-- Decoding an encoded varint yields the value back with the tail intact. -/
theorem varlen_decode_encode {v : Nat} {e : List Nat}
    (h : varlen_encode v = some e) (r : List Nat) :
    varlen_decode (e ++ r) = .ok (v, r) := by
  unfold varlen_encode at h
  split at h
  · -- v < 0xFD
    rename_i hlt
    obtain rfl : [v] = e := by simpa using h
    have h1 : ¬(v = 253) := by omega
    have h2 : ¬(v = 254) := by omega
    have h3 : ¬(v = 255) := by omega
    simp [varlen_decode, h1, h2, h3]
  · split at h
    · -- 0xFD ≤ v ≤ 0xFFFF
      rename_i hge hle
      have hp : packFW 2 v = some (leBytes 2 v) := by
        simp [packFW]; omega
      rw [hp] at h
      obtain rfl : 253 :: leBytes 2 v = e := by simpa using h
      have ht : ((leBytes 2 v ++ r).take 2) = leBytes 2 v :=
        List.take_left' (length_leBytes 2 v)
      have hd : ((leBytes 2 v ++ r).drop 2) = r :=
        List.drop_left' (length_leBytes 2 v)
      simp [varlen_decode, ht, hd, funpack_leBytes (show v < 256 ^ 2 by omega)]
    · split at h
      · -- 0x10000 ≤ v ≤ 0xFFFFFFFF
        rename_i hge hle
        have hp : packFW 4 v = some (leBytes 4 v) := by
          simp [packFW]; omega
        rw [hp] at h
        obtain rfl : 254 :: leBytes 4 v = e := by simpa using h
        have ht : ((leBytes 4 v ++ r).take 4) = leBytes 4 v :=
          List.take_left' (length_leBytes 4 v)
        have hd : ((leBytes 4 v ++ r).drop 4) = r :=
          List.drop_left' (length_leBytes 4 v)
        simp [varlen_decode, ht, hd, funpack_leBytes (show v < 256 ^ 4 by omega)]
      · -- v ≥ 0x100000000: 8-byte case, needs v < 2^64 for pack to succeed
        rename_i hge hge2
        match hp : packFW 8 v with
        | none => rw [hp] at h; simp at h
        | some pb =>
          rw [hp] at h
          obtain ⟨rfl, hv⟩ := packFW_eq hp
          obtain rfl : 255 :: leBytes 8 v = e := by simpa using h
          have ht : ((leBytes 8 v ++ r).take 8) = leBytes 8 v :=
            List.take_left' (length_leBytes 8 v)
          have hd : ((leBytes 8 v ++ r).drop 8) = r :=
            List.drop_left' (length_leBytes 8 v)
          simp [varlen_decode, ht, hd, funpack_leBytes hv]

/-- Unfolding lemmas for `varlen_decode` on each marker byte. -/
theorem varlen_decode_cons_253 (tl : List Nat) :
    varlen_decode (253 :: tl) =
      (match funpack 2 (tl.take 2) with
       | .error e => .error e
       | .ok v => .ok (v, tl.drop 2)) := by
  simp [varlen_decode]

theorem varlen_decode_cons_254 (tl : List Nat) :
    varlen_decode (254 :: tl) =
      (match funpack 4 (tl.take 4) with
       | .error e => .error e
       | .ok v => .ok (v, tl.drop 4)) := by
  simp [varlen_decode]

theorem varlen_decode_cons_255 (tl : List Nat) :
    varlen_decode (255 :: tl) =
      (match funpack 8 (tl.take 8) with
       | .error e => .error e
       | .ok v => .ok (v, tl.drop 8)) := by
  simp [varlen_decode]

theorem varlen_decode_cons_small {m : Nat} (h1 : m ≠ 253) (h2 : m ≠ 254)
    (h3 : m ≠ 255) (tl : List Nat) : varlen_decode (m :: tl) = .ok (m, tl) := by
  simp [varlen_decode, h1, h2, h3]

/-- Frame/truncation lemma for the varint decoder: a successful decode
consumes a nonempty chunk `c` that determines the value; the decode succeeds
identically on `c` followed by any tail, and fails with `TruncatedInput` on
every strict prefix of `c`. -/
theorem varlen_decode_frame {d : List Nat} {v : Nat} {rest : List Nat}
    (h : varlen_decode d = .ok (v, rest)) :
    ∃ c, d = c ++ rest ∧ c ≠ [] ∧
      (∀ r', varlen_decode (c ++ r') = .ok (v, r')) ∧
      (∀ k, k < c.length → varlen_decode (c.take k) = .error .TruncatedInput) := by
  match d with
  | [] => simp [varlen_decode] at h
  | m :: tl =>
    by_cases h253 : m = 253
    · subst h253
      rw [varlen_decode_cons_253] at h
      match hf : funpack 2 (tl.take 2) with
      | .error e => rw [hf] at h; exact absurd h (by simp)
      | .ok v' =>
        rw [hf] at h
        simp only [Except.ok.injEq, Prod.mk.injEq] at h
        obtain ⟨rfl, rfl⟩ := h
        have hlen : (tl.take 2).length = 2 := by
          by_contra hne
          rw [funpack_err hne] at hf
          exact Except.noConfusion hf
        refine ⟨253 :: tl.take 2, by simp [List.take_append_drop], by simp, ?_, ?_⟩
        · intro r'
          rw [List.cons_append, varlen_decode_cons_253,
            List.take_left' hlen, List.drop_left' hlen, hf]
        · intro k hk
          simp only [List.length_cons, hlen] at hk
          match k with
          | 0 => simp [varlen_decode]
          | k + 1 =>
            have hkl : funpack 2 (((tl.take 2).take k).take 2) =
                .error .TruncatedInput := by
              apply funpack_err
              simp only [List.length_take, hlen]
              omega
            simp only [List.take_succ_cons]
            rw [varlen_decode_cons_253, hkl]
    · by_cases h254 : m = 254
      · subst h254
        rw [varlen_decode_cons_254] at h
        match hf : funpack 4 (tl.take 4) with
        | .error e => rw [hf] at h; exact absurd h (by simp)
        | .ok v' =>
          rw [hf] at h
          simp only [Except.ok.injEq, Prod.mk.injEq] at h
          obtain ⟨rfl, rfl⟩ := h
          have hlen : (tl.take 4).length = 4 := by
            by_contra hne
            rw [funpack_err hne] at hf
            exact Except.noConfusion hf
          refine ⟨254 :: tl.take 4, by simp [List.take_append_drop], by simp, ?_, ?_⟩
          · intro r'
            rw [List.cons_append, varlen_decode_cons_254,
              List.take_left' hlen, List.drop_left' hlen, hf]
          · intro k hk
            simp only [List.length_cons, hlen] at hk
            match k with
            | 0 => simp [varlen_decode]
            | k + 1 =>
              have hkl : funpack 4 (((tl.take 4).take k).take 4) =
                  .error .TruncatedInput := by
                apply funpack_err
                simp only [List.length_take, hlen]
                omega
              simp only [List.take_succ_cons]
              rw [varlen_decode_cons_254, hkl]
      · by_cases h255 : m = 255
        · subst h255
          rw [varlen_decode_cons_255] at h
          match hf : funpack 8 (tl.take 8) with
          | .error e => rw [hf] at h; exact absurd h (by simp)
          | .ok v' =>
            rw [hf] at h
            simp only [Except.ok.injEq, Prod.mk.injEq] at h
            obtain ⟨rfl, rfl⟩ := h
            have hlen : (tl.take 8).length = 8 := by
              by_contra hne
              rw [funpack_err hne] at hf
              exact Except.noConfusion hf
            refine ⟨255 :: tl.take 8, by simp [List.take_append_drop], by simp, ?_, ?_⟩
            · intro r'
              rw [List.cons_append, varlen_decode_cons_255,
                List.take_left' hlen, List.drop_left' hlen, hf]
            · intro k hk
              simp only [List.length_cons, hlen] at hk
              match k with
              | 0 => simp [varlen_decode]
              | k + 1 =>
                have hkl : funpack 8 (((tl.take 8).take k).take 8) =
                    .error .TruncatedInput := by
                  apply funpack_err
                  simp only [List.length_take, hlen]
                  omega
                simp only [List.take_succ_cons]
                rw [varlen_decode_cons_255, hkl]
        · rw [varlen_decode_cons_small h253 h254 h255] at h
          simp only [Except.ok.injEq, Prod.mk.injEq] at h
          obtain ⟨rfl, rfl⟩ := h
          refine ⟨[m], rfl, by simp, ?_, ?_⟩
          · intro r'
            exact varlen_decode_cons_small h253 h254 h255 r'
          · intro k hk
            simp only [List.length_singleton] at hk
            match k with
            | 0 => simp [varlen_decode]

/-! ## Round-trip lemmas: parsing a serialized buffer -/

/-- One iteration of the input-parsing loop over a serialized input. -/
theorem parse_inputs_cons_step (acc : List Input) (n : Nat) (i : Input)
    (vl tail : List Nat)
    (hph : i.prevout_hash.length = 32)
    (hidx : i.prevout_idx < 256 ^ 4)
    (hvl : varlen_encode i.script_sig.length = some vl)
    (hsq : i.seqno < 256 ^ 4) :
    parse_inputs acc (n + 1)
      (i.prevout_hash ++ (leBytes 4 i.prevout_idx ++ (vl ++ (i.script_sig ++
        (leBytes 4 i.seqno ++ tail)))))
      = parse_inputs (acc ++ [i]) n tail := by
  have h36 : (i.prevout_hash ++ leBytes 4 i.prevout_idx).length = 36 := by
    simp [hph]
  have htake32 : (i.prevout_hash ++ (leBytes 4 i.prevout_idx ++ (vl ++
      (i.script_sig ++ (leBytes 4 i.seqno ++ tail))))).take 32
      = i.prevout_hash := List.take_left' hph
  have hdrop32 : (i.prevout_hash ++ (leBytes 4 i.prevout_idx ++ (vl ++
      (i.script_sig ++ (leBytes 4 i.seqno ++ tail))))).drop 32
      = leBytes 4 i.prevout_idx ++ (vl ++ (i.script_sig ++
        (leBytes 4 i.seqno ++ tail))) := List.drop_left' hph
  have hdrop36 : (i.prevout_hash ++ (leBytes 4 i.prevout_idx ++ (vl ++
      (i.script_sig ++ (leBytes 4 i.seqno ++ tail))))).drop 36
      = vl ++ (i.script_sig ++ (leBytes 4 i.seqno ++ tail)) := by
    rw [show i.prevout_hash ++ (leBytes 4 i.prevout_idx ++ (vl ++
        (i.script_sig ++ (leBytes 4 i.seqno ++ tail))))
        = (i.prevout_hash ++ leBytes 4 i.prevout_idx) ++ (vl ++
          (i.script_sig ++ (leBytes 4 i.seqno ++ tail))) by simp]
    exact List.drop_left' h36
  have hdropfin : (i.script_sig ++ (leBytes 4 i.seqno ++ tail)).drop
      (i.script_sig.length + 4) = tail := by
    rw [show i.script_sig ++ (leBytes 4 i.seqno ++ tail)
        = (i.script_sig ++ leBytes 4 i.seqno) ++ tail by simp]
    exact List.drop_left' (by simp)
  simp [parse_inputs, htake32, hdrop32, hdrop36,
    List.take_left' (length_leBytes 4 i.prevout_idx),
    funpack_leBytes hidx, varlen_decode_encode hvl,
    List.take_left, List.drop_left,
    List.take_left' (length_leBytes 4 i.seqno), funpack_leBytes hsq, hdropfin]

/-- One iteration of the output-parsing loop over a serialized output. -/
theorem parse_outputs_cons_step (acc : List Output) (n : Nat) (o : Output)
    (vl tail : List Nat)
    (ham : o.amount < 256 ^ 8)
    (hvl : varlen_encode o.script_pub_key.length = some vl) :
    parse_outputs acc (n + 1)
      (leBytes 8 o.amount ++ (vl ++ (o.script_pub_key ++ tail)))
      = parse_outputs (acc ++ [o]) n tail := by
  have hdrop8 : (leBytes 8 o.amount ++ (vl ++ (o.script_pub_key ++
      tail))).drop 8 = vl ++ (o.script_pub_key ++ tail) :=
    List.drop_left' (length_leBytes 8 o.amount)
  simp [parse_outputs, hdrop8,
    List.take_left' (length_leBytes 8 o.amount), funpack_leBytes ham,
    varlen_decode_encode hvl, List.take_left, List.drop_left]

/-- Parsing the byte segment produced by `assemble_inputs` recovers the
input list exactly (for inputs whose prevout hashes are genuinely 32
bytes). -/
theorem parse_inputs_of_assemble :
    ∀ (inputs : List Input) (data : List Nat) (sp0 : Option Nat)
      (D : List Nat) (spf : Option Nat),
      (∀ i ∈ inputs, i.prevout_hash.length = 32) →
      assemble_inputs inputs data sp0 = some (D, spf) →
      ∃ S, D = data ++ S ∧
        ∀ (acc : List Input) (r : List Nat),
          parse_inputs acc inputs.length (S ++ r) = (acc ++ inputs, r, none) := by
  intro inputs
  induction inputs with
  | nil =>
    intro data sp0 D spf h32 hs
    simp only [assemble_inputs, Option.some.injEq, Prod.mk.injEq] at hs
    obtain ⟨rfl, rfl⟩ := hs
    exact ⟨[], by simp, fun acc r => by simp [parse_inputs]⟩
  | cons i rest ih =>
    intro data sp0 D spf h32 hs
    simp only [assemble_inputs] at hs
    match hidx : packFW 4 i.prevout_idx with
    | none => rw [hidx] at hs; exact absurd hs (by simp)
    | some idxb =>
    match hvl : varlen_encode i.script_sig.length with
    | none => rw [hidx, hvl] at hs; exact absurd hs (by simp)
    | some vl =>
    match hsq : packFW 4 i.seqno with
    | none => rw [hidx, hvl, hsq] at hs; exact absurd hs (by simp)
    | some sqb =>
    rw [hidx, hvl, hsq] at hs
    simp only at hs
    obtain ⟨hidxb, hidxlt⟩ := packFW_eq hidx
    obtain ⟨hsqb, hsqlt⟩ := packFW_eq hsq
    subst hidxb hsqb
    obtain ⟨S', hD, hparse⟩ :=
      ih (data ++ i.prevout_hash ++ leBytes 4 i.prevout_idx ++ vl ++
          i.script_sig ++ leBytes 4 i.seqno)
        (some (data ++ i.prevout_hash ++ leBytes 4 i.prevout_idx ++ vl).length)
        D spf (fun j hj => h32 j (List.mem_cons_of_mem i hj)) hs
    refine ⟨i.prevout_hash ++ (leBytes 4 i.prevout_idx ++ (vl ++
      (i.script_sig ++ (leBytes 4 i.seqno ++ S')))), by simp [hD], ?_⟩
    intro acc r
    have hstep := parse_inputs_cons_step acc rest.length i vl (S' ++ r)
      (h32 i (List.mem_cons_self i rest)) hidxlt hvl hsqlt
    calc parse_inputs acc (i :: rest).length
          ((i.prevout_hash ++ (leBytes 4 i.prevout_idx ++ (vl ++
            (i.script_sig ++ (leBytes 4 i.seqno ++ S'))))) ++ r)
        = parse_inputs acc (rest.length + 1)
            (i.prevout_hash ++ (leBytes 4 i.prevout_idx ++ (vl ++
              (i.script_sig ++ (leBytes 4 i.seqno ++ (S' ++ r)))))) := by
          simp [List.append_assoc]
      _ = parse_inputs (acc ++ [i]) rest.length (S' ++ r) := hstep
      _ = ((acc ++ [i]) ++ rest, r, none) := hparse (acc ++ [i]) r
      _ = (acc ++ (i :: rest), r, none) := by simp

/-- Parsing the byte segment produced by `assemble_outputs` recovers the
output list exactly. -/
theorem parse_outputs_of_assemble :
    ∀ (outputs : List Output) (data : List Nat) (D : List Nat),
      assemble_outputs outputs data = some D →
      ∃ S, D = data ++ S ∧
        ∀ (acc : List Output) (r : List Nat),
          parse_outputs acc outputs.length (S ++ r) = (acc ++ outputs, r, none) := by
  intro outputs
  induction outputs with
  | nil =>
    intro data D hs
    simp only [assemble_outputs, Option.some.injEq] at hs
    subst hs
    exact ⟨[], by simp, fun acc r => by simp [parse_outputs]⟩
  | cons o rest ih =>
    intro data D hs
    simp only [assemble_outputs] at hs
    match ham : packFW 8 o.amount with
    | none => rw [ham] at hs; exact absurd hs (by simp)
    | some amb =>
    match hvl : varlen_encode o.script_pub_key.length with
    | none => rw [ham, hvl] at hs; exact absurd hs (by simp)
    | some vl =>
    rw [ham, hvl] at hs
    simp only at hs
    obtain ⟨hamb, hamlt⟩ := packFW_eq ham
    subst hamb
    obtain ⟨S', hD, hparse⟩ :=
      ih (data ++ leBytes 8 o.amount ++ vl ++ o.script_pub_key) D hs
    refine ⟨leBytes 8 o.amount ++ (vl ++ (o.script_pub_key ++ S')),
      by simp [hD], ?_⟩
    intro acc r
    have hstep := parse_outputs_cons_step acc rest.length o vl (S' ++ r)
      hamlt hvl
    calc parse_outputs acc (o :: rest).length
          ((leBytes 8 o.amount ++ (vl ++ (o.script_pub_key ++ S'))) ++ r)
        = parse_outputs acc (rest.length + 1)
            (leBytes 8 o.amount ++ (vl ++ (o.script_pub_key ++ (S' ++ r)))) := by
          simp [List.append_assoc]
      _ = parse_outputs (acc ++ [o]) rest.length (S' ++ r) := hstep
      _ = ((acc ++ [o]) ++ rest, r, none) := hparse (acc ++ [o]) r
      _ = (acc ++ (o :: rest), r, none) := by simp

/-- Parsing a buffer produced by `assembleCore` succeeds from any initial
object state and recovers the serialized fields exactly (for records whose
prevout hashes are genuinely 32 bytes). -/
theorem disassemble_assembleCore (t0 : Transaction) (version : Nat)
    (inputs : List Input) (outputs : List Output) (locktime : Nat)
    (data : List Nat) (sp : Option Nat)
    (h32 : ∀ i ∈ inputs, i.prevout_hash.length = 32)
    (hs : assembleCore version inputs outputs locktime = some (data, sp)) :
    t0.disassemble data false none =
      ({ t0 with
          _raw := some data
          version := version
          inputs := inputs
          outputs := outputs
          locktime := locktime
          _hash := none }, none) := by
  unfold assembleCore at hs
  split at hs
  · exact Option.noConfusion hs
  rename_i vb hvb
  split at hs
  · exact Option.noConfusion hs
  rename_i ic hic
  split at hs
  · exact Option.noConfusion hs
  rename_i d1 sp1 hai
  split at hs
  · exact Option.noConfusion hs
  rename_i oc hoc
  split at hs
  · exact Option.noConfusion hs
  rename_i d2 hao
  split at hs
  · exact Option.noConfusion hs
  rename_i lb hlb
  simp only [Option.some.injEq, Prod.mk.injEq] at hs
  obtain ⟨hdata, hsp⟩ := hs
  obtain ⟨hvbb, hvlt⟩ := packFW_eq hvb
  obtain ⟨hlbb, hlkt⟩ := packFW_eq hlb
  subst hvbb hlbb
  obtain ⟨SI, hd1, hparseI⟩ := parse_inputs_of_assemble inputs
    (leBytes 4 version ++ ic) none d1 sp1 h32 hai
  obtain ⟨SO, hd2, hparseO⟩ := parse_outputs_of_assemble outputs
    (d1 ++ oc) d2 hao
  subst hd1 hd2 hdata
  -- the serialized buffer, fully decomposed
  have hdataeq : ((leBytes 4 version ++ ic) ++ SI ++ oc) ++ SO ++
      leBytes 4 locktime
      = leBytes 4 version ++ (ic ++ (SI ++ (oc ++ (SO ++
          leBytes 4 locktime)))) := by simp
  rw [hdataeq]
  have hne : leBytes 4 version ++ (ic ++ (SI ++ (oc ++ (SO ++
      leBytes 4 locktime)))) ≠ [] := by
    intro hcon
    have := congrArg List.length hcon
    simp at this
  have htake4 : (leBytes 4 version ++ (ic ++ (SI ++ (oc ++ (SO ++
      leBytes 4 locktime))))).take 4 = leBytes 4 version :=
    List.take_left' (length_leBytes 4 version)
  have hdrop4 : (leBytes 4 version ++ (ic ++ (SI ++ (oc ++ (SO ++
      leBytes 4 locktime))))).drop 4 = ic ++ (SI ++ (oc ++ (SO ++
      leBytes 4 locktime))) :=
    List.drop_left' (length_leBytes 4 version)
  have hlbtake : (leBytes 4 locktime).take 4 = leBytes 4 locktime :=
    List.take_of_length_le (le_of_eq (length_leBytes 4 locktime))
  simp [Transaction.disassemble, hne, htake4, hdrop4,
    funpack_leBytes hvlt, varlen_decode_encode hic,
    hparseI, varlen_decode_encode hoc, hparseO, hlbtake,
    funpack_leBytes hlkt]

/-! ## Claim C2 -/

/-- C2: for every structured record (any version, lockTime, input list and
output list with field values in their declared ranges — in particular
32-byte prevout hashes), parsing the bytes produced by serializing the record
yields a record whose version, inputs, outputs and lockTime equal those of
the original field-for-field. -/
theorem claim_C2_field_roundtrip (t t1 t0 : Transaction) (data : List Nat)
    (h32 : ∀ i ∈ t.inputs, i.prevout_hash.length = 32)
    (hs : t.assemble = some (t1, data)) :
    ∃ t2, t0.disassemble data false none = (t2, none) ∧
      t2.version = t.version ∧ t2.inputs = t.inputs ∧
      t2.outputs = t.outputs ∧ t2.locktime = t.locktime := by
  unfold Transaction.assemble at hs
  split at hs
  · exact Option.noConfusion hs
  rename_i data0 sp hcore
  simp only [Option.some.injEq, Prod.mk.injEq] at hs
  obtain ⟨-, rfl⟩ := hs
  exact ⟨_, disassemble_assembleCore t0 t.version t.inputs t.outputs
    t.locktime data0 sp h32 hcore, rfl, rfl, rfl, rfl⟩

def C2t : Transaction :=
  { _raw := none, inputs := [⟨List.replicate 32 7, 65536, [1, 2], 4⟩],
    outputs := [⟨1000, [9]⟩], locktime := 21, fees := none, version := 2,
    _hash := none }

/-- Witness for C2 at a concrete record. -/
theorem claim_C2_field_roundtrip_witness :
    (∀ i ∈ C2t.inputs, i.prevout_hash.length = 32) ∧
    (∃ t1 data, C2t.assemble = some (t1, data) ∧
      ∃ t2, (Transaction.init [] none).disassemble data false none =
          (t2, none) ∧
        t2.version = C2t.version ∧ t2.inputs = C2t.inputs ∧
        t2.outputs = C2t.outputs ∧ t2.locktime = C2t.locktime) := by
  refine ⟨by decide, ?_⟩
  match hs : C2t.assemble with
  | none => exact absurd hs (by decide)
  | some (t1, data) =>
    exact ⟨t1, data, rfl,
      claim_C2_field_roundtrip C2t t1 (Transaction.init [] none) data
        (by decide) hs⟩

/-! ## Claim C1 (corrected) -/

/-- C1 (amended): for every raw buffer that is itself the output of
serialization (equivalently, a well-formed buffer all of whose varints are
minimally encoded), parsing and re-serializing reproduces the buffer
byte-for-byte.  (The unamended claim — for *every* buffer that parses without
error — fails on buffers with non-minimally encoded varints; see the
counterexample.) -/
theorem claim_C1_roundtrip_canonical (r r1 t0 : Transaction) (b : List Nat)
    (h32 : ∀ i ∈ r.inputs, i.prevout_hash.length = 32)
    (hs : r.assemble = some (r1, b)) :
    ∃ t' t'', t0.disassemble b false none = (t', none) ∧
      t'.assemble = some (t'', b) := by
  unfold Transaction.assemble at hs
  split at hs
  · exact Option.noConfusion hs
  rename_i data0 sp hcore
  simp only [Option.some.injEq, Prod.mk.injEq] at hs
  obtain ⟨-, rfl⟩ := hs
  refine ⟨{ t0 with
      _raw := some data0
      version := r.version
      inputs := r.inputs
      outputs := r.outputs
      locktime := r.locktime
      _hash := none },
    { t0 with
      _raw := some data0
      version := r.version
      inputs := r.inputs
      outputs := r.outputs
      locktime := r.locktime
      _hash := none },
    disassemble_assembleCore t0 r.version r.inputs r.outputs
      r.locktime data0 sp h32 hcore, ?_⟩
  simp [Transaction.assemble, hcore]

/-- A buffer whose input count is the non-minimal varint `FD 00 00`
(value 0): it parses without error but does not re-serialize to itself. -/
def C1bstar : List Nat := [1, 0, 0, 0, 253, 0, 0, 0, 0, 0, 0, 0]

/-- Counterexample to C1 as stated: `C1bstar` parses without error, yet
re-serializing the parsed record yields the 10-byte canonical buffer, not
`C1bstar`. -/
theorem claim_C1_counterexample :
    ((Transaction.init [] none).disassemble C1bstar false none).2 = none ∧
    (((Transaction.init [] none).disassemble C1bstar false none).1.assemble).map
        Prod.snd = some [1, 0, 0, 0, 0, 0, 0, 0, 0, 0] ∧
    [1, 0, 0, 0, 0, 0, 0, 0, 0, 0] ≠ C1bstar := by decide

/-- Witness for the amended C1 at a concrete record. -/
theorem claim_C1_roundtrip_canonical_witness :
    (∀ i ∈ C2t.inputs, i.prevout_hash.length = 32) ∧
    (∃ r1 b, C2t.assemble = some (r1, b) ∧
      ∃ t' t'', (Transaction.init [] none).disassemble b false none =
          (t', none) ∧ t'.assemble = some (t'', b)) := by
  refine ⟨by decide, ?_⟩
  match hs : C2t.assemble with
  | none => exact absurd hs (by decide)
  | some (r1, b) =>
    exact ⟨r1, b, rfl,
      claim_C1_roundtrip_canonical C2t r1 (Transaction.init [] none) b
        (by decide) hs⟩

/-! ## Claims C8 and C10 (`is_coinbase`) -/

/-- C8: on a record with at least one input, `is_coinbase` returns exactly
the comparison of the first input's prevout hash with the 32-zero-byte
`nullprev` constant — so it is `true` iff that hash is `nullprev`, and no
other input and no other field influences the result. -/
theorem claim_C8_is_coinbase (t : Transaction) (i : Input) (rest : List Input)
    (h : t.inputs = i :: rest) :
    t.is_coinbase = some (decide (i.prevout_hash = nullprev)) ∧
    (t.is_coinbase = some true ↔ i.prevout_hash = nullprev) := by
  unfold Transaction.is_coinbase
  rw [h]
  exact ⟨rfl, by simp⟩

def C8t : Transaction :=
  { _raw := some [1], inputs := [⟨nullprev, 1, [7], 2⟩, ⟨[5], 0, [], 0⟩],
    outputs := [⟨3, []⟩], locktime := 8, fees := some 2, version := 6,
    _hash := none }

/-- Witness for C8 at a concrete record (second input not null, result still
determined by the first). -/
theorem claim_C8_is_coinbase_witness :
    C8t.inputs = ⟨nullprev, 1, [7], 2⟩ :: [⟨[5], 0, [], 0⟩] ∧
    (C8t.is_coinbase =
        some (decide ((⟨nullprev, 1, [7], 2⟩ : Input).prevout_hash = nullprev)) ∧
      (C8t.is_coinbase = some true ↔
        (⟨nullprev, 1, [7], 2⟩ : Input).prevout_hash = nullprev)) :=
  ⟨rfl, claim_C8_is_coinbase C8t ⟨nullprev, 1, [7], 2⟩ [⟨[5], 0, [], 0⟩] rfl⟩

/-- C10: `is_coinbase` is total only on records with a non-empty input list —
on an empty input list it indexes `inputs[0]` of an empty sequence and fails
(returns no boolean) rather than returning `false`. -/
theorem claim_C10_is_coinbase_empty (t : Transaction) (h : t.inputs = []) :
    t.is_coinbase = none := by
  unfold Transaction.is_coinbase
  rw [h]

/-- Witness for C10: a freshly constructed record has empty inputs and its
`is_coinbase` fails. -/
theorem claim_C10_is_coinbase_empty_witness :
    (Transaction.init [9] (some 3)).inputs = [] ∧
    (Transaction.init [9] (some 3)).is_coinbase = none :=
  ⟨rfl, claim_C10_is_coinbase_empty _ rfl⟩

/-! ## Claim C3 (split serialization) -/

/-- `assemble_outputs` only appends to its accumulator. -/
theorem assemble_outputs_shift :
    ∀ (outputs : List Output) (data : List Nat),
      assemble_outputs outputs data =
        (assemble_outputs outputs []).map (data ++ ·) := by
  intro outputs
  induction outputs with
  | nil => intro data; simp [assemble_outputs]
  | cons o rest ih =>
    intro data
    simp only [assemble_outputs]
    cases ham : packFW 8 o.amount with
    | none => simp
    | some am =>
      cases hvl : varlen_encode o.script_pub_key.length with
      | none => simp
      | some vl =>
        simp only
        rw [ih (data ++ am ++ vl ++ o.script_pub_key),
          ih ([] ++ am ++ vl ++ o.script_pub_key)]
        cases assemble_outputs rest [] <;> simp

/-- On a nonempty input list, `assemble_inputs` ends with the last input's
scriptSig and sequence bytes, and the recorded split point is the length of
everything before that scriptSig (which itself ends with the scriptSig's
varint length). -/
theorem assemble_inputs_split :
    ∀ (inputs : List Input) (data : List Nat) (sp0 : Option Nat)
      (D : List Nat) (spf : Option Nat),
      inputs ≠ [] →
      assemble_inputs inputs data sp0 = some (D, spf) →
      ∃ last pre0 ve sq,
        inputs.getLast? = some last ∧
        varlen_encode last.script_sig.length = some ve ∧
        packFW 4 last.seqno = some sq ∧
        (∃ p1, pre0 = p1 ++ ve) ∧
        D = pre0 ++ last.script_sig ++ sq ∧
        spf = some pre0.length := by
  intro inputs
  induction inputs with
  | nil => intro data sp0 D spf hne; exact absurd rfl hne
  | cons i rest ih =>
    intro data sp0 D spf hne hs
    simp only [assemble_inputs] at hs
    cases hidx : packFW 4 i.prevout_idx with
    | none => rw [hidx] at hs; exact absurd hs (by simp)
    | some idxb =>
    cases hvl : varlen_encode i.script_sig.length with
    | none => rw [hidx, hvl] at hs; exact absurd hs (by simp)
    | some vl =>
    cases hsq : packFW 4 i.seqno with
    | none => rw [hidx, hvl, hsq] at hs; exact absurd hs (by simp)
    | some sqb =>
    rw [hidx, hvl, hsq] at hs
    simp only at hs
    cases rest with
    | nil =>
      simp only [assemble_inputs, Option.some.injEq, Prod.mk.injEq] at hs
      obtain ⟨hD, hspf⟩ := hs
      refine ⟨i, data ++ i.prevout_hash ++ idxb ++ vl, vl, sqb, rfl, hvl, hsq,
        ⟨data ++ i.prevout_hash ++ idxb, by simp⟩, ?_, ?_⟩
      · rw [← hD]
      · rw [← hspf]
    | cons j rest' =>
      obtain ⟨last, pre0, ve, sq, hlast, hve, hsq', hp1, hD, hspf⟩ :=
        ih (data ++ i.prevout_hash ++ idxb ++ vl ++ i.script_sig ++ sqb)
          (some (data ++ i.prevout_hash ++ idxb ++ vl).length) D spf
          (by simp) hs
      exact ⟨last, pre0, ve, sq, by rw [List.getLast?_cons_cons]; exact hlast,
        hve, hsq', hp1, hD, hspf⟩

/-- C3: for every record with at least one input, serialization in split
mode returns a pair whose concatenation is the non-split serialization, the
suffix starts exactly at the first byte of the last input's scriptSig (it is
the scriptSig followed by the remaining serialized fields), and the part
before the split ends with the varint length of that scriptSig. -/
theorem claim_C3_split (t t1 : Transaction) (pre suf : List Nat)
    (hne : t.inputs ≠ [])
    (hs : t.assembleSplit = some (t1, pre, suf)) :
    (∃ t2, t.assemble = some (t2, pre ++ suf)) ∧
    ∃ last ve sq oc ob lb p1,
      t.inputs.getLast? = some last ∧
      varlen_encode last.script_sig.length = some ve ∧
      pre = p1 ++ ve ∧
      packFW 4 last.seqno = some sq ∧
      varlen_encode t.outputs.length = some oc ∧
      assemble_outputs t.outputs [] = some ob ∧
      packFW 4 t.locktime = some lb ∧
      suf = last.script_sig ++ (sq ++ (oc ++ (ob ++ lb))) := by
  unfold Transaction.assembleSplit at hs
  split at hs
  · exact Option.noConfusion hs
  rename_i data sp hcore
  have hcore' := hcore
  unfold assembleCore at hcore'
  split at hcore'
  · exact Option.noConfusion hcore'
  rename_i vb hvb
  split at hcore'
  · exact Option.noConfusion hcore'
  rename_i ic hic
  split at hcore'
  · exact Option.noConfusion hcore'
  rename_i d1 sp1 hai
  split at hcore'
  · exact Option.noConfusion hcore'
  rename_i oc hoc
  split at hcore'
  · exact Option.noConfusion hcore'
  rename_i d2 hao
  split at hcore'
  · exact Option.noConfusion hcore'
  rename_i lb hlb
  simp only [Option.some.injEq, Prod.mk.injEq] at hcore'
  obtain ⟨hdata, hsp⟩ := hcore'
  obtain ⟨last, pre0, ve, sq, hlast, hve, hsq, ⟨p1, hp1⟩, hd1, hspf⟩ :=
    assemble_inputs_split t.inputs (vb ++ ic) none d1 sp1 hne hai
  have hob := assemble_outputs_shift t.outputs (d1 ++ oc)
  rw [hao] at hob
  cases hobase : assemble_outputs t.outputs [] with
  | none => rw [hobase] at hob; exact absurd hob (by simp)
  | some ob =>
  rw [hobase] at hob
  simp only [Option.map_some', Option.some.injEq] at hob
  -- hob : d2 = d1 ++ oc ++ ob
  subst hd1 hsp hspf hdata hob hp1
  -- reduce the sp match in hs
  simp only [Option.some.injEq, Prod.mk.injEq] at hs
  obtain ⟨-, hpre, hsuf⟩ := hs
  have hsplit : (p1 ++ ve) ++ last.script_sig ++ sq ++ oc ++ ob ++ lb
      = (p1 ++ ve) ++ (last.script_sig ++ (sq ++ (oc ++ (ob ++ lb)))) := by
    simp
  have hpre' : ((p1 ++ ve) ++ last.script_sig ++ sq ++ oc ++ ob ++
      lb).take (p1 ++ ve).length = p1 ++ ve := by
    rw [hsplit]
    exact List.take_left _ _
  have hsuf' : ((p1 ++ ve) ++ last.script_sig ++ sq ++ oc ++ ob ++
      lb).drop (p1 ++ ve).length
      = last.script_sig ++ (sq ++ (oc ++ (ob ++ lb))) := by
    rw [hsplit]
    exact List.drop_left _ _
  rw [hpre'] at hpre
  rw [hsuf'] at hsuf
  subst hpre hsuf
  constructor
  · refine ⟨{ t with
        _raw := some (p1 ++ ve ++ last.script_sig ++ sq ++ oc ++ ob ++ lb)
        _hash := none }, ?_⟩
    unfold Transaction.assemble
    rw [hcore]
    simp
  · exact ⟨last, ve, sq, oc, ob, lb, p1, hlast, hve, rfl, hsq, hoc,
      rfl, hlb, rfl⟩

def C3t : Transaction :=
  { _raw := none,
    inputs := [⟨List.replicate 32 1, 0, [5, 6], 7⟩,
               ⟨List.replicate 32 2, 1, [8], 9⟩],
    outputs := [⟨50, [172]⟩], locktime := 3, fees := none, version := 1,
    _hash := none }

/-- Witness for C3 at a concrete two-input record. -/
theorem claim_C3_split_witness :
    C3t.inputs ≠ [] ∧
    ∃ t1 pre suf, C3t.assembleSplit = some (t1, pre, suf) ∧
      ((∃ t2, C3t.assemble = some (t2, pre ++ suf)) ∧
        ∃ last ve sq oc ob lb p1,
          C3t.inputs.getLast? = some last ∧
          varlen_encode last.script_sig.length = some ve ∧
          pre = p1 ++ ve ∧
          packFW 4 last.seqno = some sq ∧
          varlen_encode C3t.outputs.length = some oc ∧
          assemble_outputs C3t.outputs [] = some ob ∧
          packFW 4 C3t.locktime = some lb ∧
          suf = last.script_sig ++ (sq ++ (oc ++ (ob ++ lb)))) := by
  refine ⟨by decide, ?_⟩
  match hs : C3t.assembleSplit with
  | none => exact absurd hs (by decide)
  | some (t1, pre, suf) =>
    exact ⟨t1, pre, suf, rfl, claim_C3_split C3t t1 pre suf (by decide) hs⟩

/-! ## Claim C4 (hash memoization, corrected) -/

set_option maxRecDepth 100000

/-- C4 (amended): the `hash` accessor is memoized — two accesses with no
intervening mutation return the same value — but mutating the record's
fields directly does *not* invalidate the caches: the next access returns
the previously cached (stale) value.  Only `assemble` (or `disassemble`)
invalidates; after `assemble` the next access returns the double SHA-256 of
the serialized bytes. -/
theorem claim_C4_hash_memoization :
    (∀ (t t' : Transaction) (h : List Nat),
        t.hashAccess = some (h, t') → t'.hashAccess = some (h, t')) ∧
    (∀ (t : Transaction) (c : List Nat) (v : Nat) (ins : List Input)
        (outs : List Output) (lk : Nat),
        t._hash = some c →
        ({ t with
            version := v
            inputs := ins
            outputs := outs
            locktime := lk } : Transaction).hashAccess =
          some (c, { t with
            version := v
            inputs := ins
            outputs := outs
            locktime := lk })) ∧
    (∀ (t t1 : Transaction) (d : List Nat),
        t.assemble = some (t1, d) →
        t1.hashAccess = some (dsha d, { t1 with _hash := some (dsha d) })) := by
  refine ⟨?_, ?_, ?_⟩
  · intro t t' h hacc
    unfold Transaction.hashAccess at hacc ⊢
    split at hacc
    · rename_i h0 hh
      simp only [Option.some.injEq, Prod.mk.injEq] at hacc
      obtain ⟨rfl, rfl⟩ := hacc
      simp [hh]
    · rename_i hh
      split at hacc
      · exact Option.noConfusion hacc
      · rename_i raw hraw
        simp only [Option.some.injEq, Prod.mk.injEq] at hacc
        obtain ⟨rfl, rfl⟩ := hacc
        simp
  · intro t c v ins outs lk hc
    simp [Transaction.hashAccess, hc]
  · intro t t1 d hs
    unfold Transaction.assemble at hs
    split at hs
    · exact Option.noConfusion hs
    rename_i data sp hcore
    simp only [Option.some.injEq, Prod.mk.injEq] at hs
    obtain ⟨rfl, rfl⟩ := hs
    simp [Transaction.hashAccess]

def C4w : Transaction :=
  { _raw := some [3], inputs := [], outputs := [], locktime := 0,
    fees := none, version := 1, _hash := some [4, 5] }

/-- Witness for C4 (amended), applying the direct-mutation part at a
concrete record with a cached hash. -/
theorem claim_C4_hash_memoization_witness :
    C4w._hash = some [4, 5] ∧
    ({ C4w with
        version := 2
        inputs := []
        outputs := [⟨1, []⟩]
        locktime := 3 } : Transaction).hashAccess =
      some ([4, 5], { C4w with
        version := 2
        inputs := []
        outputs := [⟨1, []⟩]
        locktime := 3 }) :=
  ⟨rfl, claim_C4_hash_memoization.2.1 C4w [4, 5] 2 [] [⟨1, []⟩] 3 rfl⟩

/-- The parsed transaction of the C4 counterexample: a one-input record
parsed from a 51-byte buffer (`disassemble` is called with an empty — falsy —
`raw` argument, so the constructor-supplied buffer is used). -/
def C4b : List Nat :=
  [1, 0, 0, 0] ++ [1] ++ List.replicate 32 0 ++ [7, 0, 0, 0] ++ [0] ++
    [5, 0, 0, 0] ++ [0] ++ [9, 0, 0, 0]

def C4t0 : Transaction := ((Transaction.init C4b none).disassemble [] false none).1

/-- The value and post-state of the first `hash` access. -/
def C4pair : List Nat × Transaction := C4t0.hashAccess.getD ([], C4t0)

/-- The record after directly appending an output (no `assemble` call). -/
def C4t2 : Transaction :=
  { C4pair.2 with outputs := C4pair.2.outputs ++ [⟨100, []⟩] }

/-- Counterexample to C4 as stated: after appending an output directly, the
next `hash` access returns the stale cached value, which is *not* the double
SHA-256 of the serialization of the current field values. -/
theorem claim_C4_counterexample :
    C4t2.hashAccess.map Prod.fst = some C4pair.1 ∧
    (C4t2.assemble).map (fun p => dsha p.2) ≠ some C4pair.1 := by
  constructor
  · decide
  · decide

/-! ## Claim C6 (parse failure side effects, corrected) -/

/-- `funpack` fails only with `TruncatedInput`. -/
theorem funpack_error_eq {w : Nat} {bs : List Nat} {e : Err}
    (h : funpack w bs = .error e) : e = .TruncatedInput := by
  unfold funpack at h
  split at h
  · exact Except.noConfusion h
  · exact (Except.error.injEq _ _ ▸ h).symm

/-- `varlen_decode` fails only with `TruncatedInput`. -/
theorem varlen_decode_error_eq {bs : List Nat} {e : Err}
    (h : varlen_decode bs = .error e) : e = .TruncatedInput := by
  match bs with
  | [] =>
    simp only [varlen_decode, Except.error.injEq] at h
    exact h.symm
  | m :: tl =>
    simp only [varlen_decode] at h
    split at h
    · split at h
      · rename_i hf
        cases (funpack_error_eq hf)
        exact (Except.error.injEq _ _ ▸ h).symm
      · exact Except.noConfusion h
    · split at h
      · split at h
        · rename_i hf
          cases (funpack_error_eq hf)
          exact (Except.error.injEq _ _ ▸ h).symm
        · exact Except.noConfusion h
      · split at h
        · split at h
          · rename_i hf
            cases (funpack_error_eq hf)
            exact (Except.error.injEq _ _ ▸ h).symm
          · exact Except.noConfusion h
        · exact Except.noConfusion h

/-- The input-parsing loop fails only with `TruncatedInput`. -/
theorem parse_inputs_error_eq :
    ∀ (n : Nat) (acc items : List Input) (d rest : List Nat) (e : Err),
      parse_inputs acc n d = (items, rest, some e) → e = .TruncatedInput := by
  intro n
  induction n with
  | zero =>
    intro acc items d rest e h
    simp only [parse_inputs, Prod.mk.injEq] at h
    exact absurd h.2.2 (by simp)
  | succ n ih =>
    intro acc items d rest e h
    unfold parse_inputs at h
    split at h
    · rename_i hf
      cases (funpack_error_eq hf)
      simp only [Prod.mk.injEq, Option.some.injEq] at h
      exact h.2.2.symm
    · split at h
      · rename_i hv
        cases (varlen_decode_error_eq hv)
        simp only [Prod.mk.injEq, Option.some.injEq] at h
        exact h.2.2.symm
      · split at h
        · rename_i hf
          cases (funpack_error_eq hf)
          simp only [Prod.mk.injEq, Option.some.injEq] at h
          exact h.2.2.symm
        · exact ih _ _ _ _ _ h

/-- The output-parsing loop fails only with `TruncatedInput`. -/
theorem parse_outputs_error_eq :
    ∀ (n : Nat) (acc items : List Output) (d rest : List Nat) (e : Err),
      parse_outputs acc n d = (items, rest, some e) → e = .TruncatedInput := by
  intro n
  induction n with
  | zero =>
    intro acc items d rest e h
    simp only [parse_outputs, Prod.mk.injEq] at h
    exact absurd h.2.2 (by simp)
  | succ n ih =>
    intro acc items d rest e h
    unfold parse_outputs at h
    split at h
    · rename_i hf
      cases (funpack_error_eq hf)
      simp only [Prod.mk.injEq, Option.some.injEq] at h
      exact h.2.2.symm
    · split at h
      · rename_i hv
        cases (varlen_decode_error_eq hv)
        simp only [Prod.mk.injEq, Option.some.injEq] at h
        exact h.2.2.symm
      · exact ih _ _ _ _ _ h

/-- C6 (amended): parse is *not* atomic — on failure no record is returned,
but the object is mutated in place: the raw-buffer cache is replaced by the
new buffer (when a nonempty buffer is passed) and fields parsed before the
failure point keep their new values.  What does hold: the cached hash is
left unchanged by every `TruncatedInput` failure and cleared by the
trailing-data `MalformedInput` failure, and the raw cache always ends up
holding the offending buffer. -/
theorem claim_C6_parse_failure_state (t : Transaction) (b : List Nat)
    (db : Bool) (fees : Option Nat) (t' : Transaction) (e : Err)
    (hb : b ≠ [])
    (h : t.disassemble b db fees = (t', some e)) :
    t'._raw = some b ∧
    (e = .TruncatedInput → t'._hash = t._hash) ∧
    (e = .MalformedInput → t'._hash = none) := by
  cases fees with
  | none =>
    unfold Transaction.disassemble at h
    simp only [hb, if_false, ite_false] at h
    split at h
    · rename_i e1 hf
      cases (funpack_error_eq hf)
      simp only [Prod.mk.injEq, Option.some.injEq] at h
      obtain ⟨rfl, rfl⟩ := h
      exact ⟨rfl, fun _ => rfl, fun hm => Err.noConfusion hm⟩
    · rename_i version hfv
      split at h
      · rename_i e1 hv
        cases (varlen_decode_error_eq hv)
        simp only [Prod.mk.injEq, Option.some.injEq] at h
        obtain ⟨rfl, rfl⟩ := h
        exact ⟨rfl, fun _ => rfl, fun hm => Err.noConfusion hm⟩
      · rename_i input_count d1 hvd
        split at h
        · rename_i items x e1 hpi
          cases (parse_inputs_error_eq input_count [] items d1 x e1 hpi)
          simp only [Prod.mk.injEq, Option.some.injEq] at h
          obtain ⟨rfl, rfl⟩ := h
          exact ⟨rfl, fun _ => rfl, fun hm => Err.noConfusion hm⟩
        · rename_i items d2 hpi
          split at h
          · rename_i e1 hv2
            cases (varlen_decode_error_eq hv2)
            simp only [Prod.mk.injEq, Option.some.injEq] at h
            obtain ⟨rfl, rfl⟩ := h
            exact ⟨rfl, fun _ => rfl, fun hm => Err.noConfusion hm⟩
          · rename_i output_count d3 hvd2
            split at h
            · rename_i oitems x e1 hpo
              cases (parse_outputs_error_eq output_count [] oitems d3 x e1 hpo)
              simp only [Prod.mk.injEq, Option.some.injEq] at h
              obtain ⟨rfl, rfl⟩ := h
              exact ⟨rfl, fun _ => rfl, fun hm => Err.noConfusion hm⟩
            · rename_i oitems d4 hpo
              split at h
              · rename_i e1 hf2
                cases (funpack_error_eq hf2)
                simp only [Prod.mk.injEq, Option.some.injEq] at h
                obtain ⟨rfl, rfl⟩ := h
                exact ⟨rfl, fun _ => rfl, fun hm => Err.noConfusion hm⟩
              · rename_i lk hf2
                split at h
                · exact Option.noConfusion (congrArg Prod.snd h)
                · simp only [Prod.mk.injEq, Option.some.injEq] at h
                  obtain ⟨rfl, rfl⟩ := h
                  exact ⟨rfl, fun hm => Err.noConfusion hm, fun _ => rfl⟩
  | some f =>
    unfold Transaction.disassemble at h
    simp only [hb, if_false, ite_false] at h
    split at h
    · rename_i e1 hf
      cases (funpack_error_eq hf)
      simp only [Prod.mk.injEq, Option.some.injEq] at h
      obtain ⟨rfl, rfl⟩ := h
      exact ⟨rfl, fun _ => rfl, fun hm => Err.noConfusion hm⟩
    · rename_i version hfv
      split at h
      · rename_i e1 hv
        cases (varlen_decode_error_eq hv)
        simp only [Prod.mk.injEq, Option.some.injEq] at h
        obtain ⟨rfl, rfl⟩ := h
        exact ⟨rfl, fun _ => rfl, fun hm => Err.noConfusion hm⟩
      · rename_i input_count d1 hvd
        split at h
        · rename_i items x e1 hpi
          cases (parse_inputs_error_eq input_count [] items d1 x e1 hpi)
          simp only [Prod.mk.injEq, Option.some.injEq] at h
          obtain ⟨rfl, rfl⟩ := h
          exact ⟨rfl, fun _ => rfl, fun hm => Err.noConfusion hm⟩
        · rename_i items d2 hpi
          split at h
          · rename_i e1 hv2
            cases (varlen_decode_error_eq hv2)
            simp only [Prod.mk.injEq, Option.some.injEq] at h
            obtain ⟨rfl, rfl⟩ := h
            exact ⟨rfl, fun _ => rfl, fun hm => Err.noConfusion hm⟩
          · rename_i output_count d3 hvd2
            split at h
            · rename_i oitems x e1 hpo
              cases (parse_outputs_error_eq output_count [] oitems d3 x e1 hpo)
              simp only [Prod.mk.injEq, Option.some.injEq] at h
              obtain ⟨rfl, rfl⟩ := h
              exact ⟨rfl, fun _ => rfl, fun hm => Err.noConfusion hm⟩
            · rename_i oitems d4 hpo
              split at h
              · rename_i e1 hf2
                cases (funpack_error_eq hf2)
                simp only [Prod.mk.injEq, Option.some.injEq] at h
                obtain ⟨rfl, rfl⟩ := h
                exact ⟨rfl, fun _ => rfl, fun hm => Err.noConfusion hm⟩
              · rename_i lk hf2
                split at h
                · exact Option.noConfusion (congrArg Prod.snd h)
                · simp only [Prod.mk.injEq, Option.some.injEq] at h
                  obtain ⟨rfl, rfl⟩ := h
                  exact ⟨rfl, fun hm => Err.noConfusion hm, fun _ => rfl⟩

/-- Pre-state for the C6 counterexample: distinctive field values and a
cached hash. -/
def C6t0 : Transaction :=
  { _raw := some [9], inputs := [⟨[1], 2, [3], 4⟩], outputs := [⟨5, [6]⟩],
    locktime := 77, fees := none, version := 7, _hash := some [1, 2, 3] }

/-- A buffer that is truncated inside the first input. -/
def C6b : List Nat := [1, 0, 0, 0, 2]

/-- Counterexample to C6 as stated: parsing `C6b` fails with
`TruncatedInput`, yet the object is *not* left unchanged — its version has
been overwritten with the parsed value, its inputs cleared, and its raw
cache replaced. -/
theorem claim_C6_counterexample :
    (C6t0.disassemble C6b false none).2 = some Err.TruncatedInput ∧
    (C6t0.disassemble C6b false none).1 ≠ C6t0 ∧
    (C6t0.disassemble C6b false none).1.version = 1 ∧
    (C6t0.disassemble C6b false none).1.inputs = [] := by decide

/-- Witness for the amended C6 at the concrete failing parse. -/
theorem claim_C6_parse_failure_state_witness :
    C6b ≠ [] ∧
    ∃ t' e, C6t0.disassemble C6b false none = (t', some e) ∧
      (t'._raw = some C6b ∧
        (e = .TruncatedInput → t'._hash = C6t0._hash) ∧
        (e = .MalformedInput → t'._hash = none)) := by
  refine ⟨by decide, ?_⟩
  match hs : C6t0.disassemble C6b false none with
  | (t', none) =>
    have h2 : (C6t0.disassemble C6b false none).2 = none := by rw [hs]
    exact absurd h2 (by decide)
  | (t', some e) =>
    exact ⟨t', e, rfl,
      claim_C6_parse_failure_state C6t0 C6b false none t' e (by decide) hs⟩

/-! ## Claim C9 (`Input.coinbase`, corrected) -/

theorem encoded_height_eq (h : Nat) :
    encoded_height h =
      if h = 0 then [] else h % 256 :: encoded_height (h / 256) := by
  rw [encoded_height]

theorem encoded_height_zero : encoded_height 0 = [] := by
  rw [encoded_height_eq]
  rfl

theorem encoded_height_pos (h : Nat) (h0 : h ≠ 0) :
    encoded_height h = h % 256 :: encoded_height (h / 256) := by
  rw [encoded_height_eq, if_neg h0]

/-- The height loop produces the base-256 value back. -/
theorem unpackLE_encoded_height (h : Nat) :
    unpackLE (encoded_height h) = h := by
  induction h using Nat.strong_induction_on with
  | _ h ih =>
    by_cases h0 : h = 0
    · subst h0
      rw [encoded_height_zero]
      rfl
    · rw [encoded_height_pos h h0]
      simp only [unpackLE]
      rw [ih (h / 256) (Nat.div_lt_self (Nat.pos_of_ne_zero h0) (by norm_num))]
      omega

/-- Every byte of the height encoding is a genuine byte. -/
theorem encoded_height_bytes_lt (h : Nat) :
    ∀ d ∈ encoded_height h, d < 256 := by
  induction h using Nat.strong_induction_on with
  | _ h ih =>
    by_cases h0 : h = 0
    · subst h0
      rw [encoded_height_zero]
      simp
    · rw [encoded_height_pos h h0]
      intro d hd
      rcases List.mem_cons.mp hd with hd | hd
      · subst hd
        exact Nat.mod_lt _ (by norm_num)
      · exact ih (h / 256)
          (Nat.div_lt_self (Nat.pos_of_ne_zero h0) (by norm_num)) d hd

theorem encoded_height_ne_nil (h : Nat) (h0 : h ≠ 0) :
    encoded_height h ≠ [] := by
  rw [encoded_height_pos h h0]
  simp

/-- Minimality: the height encoding has no trailing zero byte. -/
theorem encoded_height_getLast (h : Nat) :
    (encoded_height h).getLast? ≠ some 0 := by
  induction h using Nat.strong_induction_on with
  | _ h ih =>
    by_cases h0 : h = 0
    · subst h0
      rw [encoded_height_zero]
      simp
    · rw [encoded_height_pos h h0]
      by_cases hs : h / 256 = 0
      · rw [hs, encoded_height_zero]
        have hlt : h < 256 := by omega
        simp only [List.getLast?_singleton, ne_eq, Option.some.injEq]
        omega
      · obtain ⟨a, l', heq⟩ :=
          List.exists_cons_of_ne_nil (encoded_height_ne_nil (h / 256) hs)
        rw [heq, List.getLast?_cons_cons, ← heq]
        exact ih (h / 256)
          (Nat.div_lt_self (Nat.pos_of_ne_zero h0) (by norm_num))

/-- The number of bytes of the height encoding. -/
theorem encoded_height_length_le :
    ∀ (n h : Nat), h < 256 ^ n → (encoded_height h).length ≤ n := by
  intro n
  induction n with
  | zero =>
    intro h hh
    norm_num at hh
    subst hh
    rw [encoded_height_zero]
    simp
  | succ n ih =>
    intro h hh
    by_cases h0 : h = 0
    · subst h0
      rw [encoded_height_zero]
      simp
    · rw [encoded_height_pos h h0]
      simp only [List.length_cons]
      have hdiv : h / 256 < 256 ^ n := by
        rw [Nat.div_lt_iff_lt_mul (by norm_num)]
        calc h < 256 ^ (n + 1) := hh
          _ = 256 ^ n * 256 := by ring
      have := ih _ hdiv
      omega

/-- C9 (amended): for every height whose minimal base-256 encoding fits in
at most 255 bytes (every height `< 256 ^ 255`) and every extraScriptSig,
`Input.coinbase` returns an `Input` with `prevout_hash = nullprev`,
`prevout_idx = 0xFFFFFFFF`, `seqno = 0`, and scriptSig equal to one length
byte followed by the minimal little-endian encoding of the height (empty for
height 0) followed by the extraScriptSig.  (For heights of 256 or more
encoded bytes, the single length byte overflows `pack("B", …)` and the call
raises instead; see the counterexample.) -/
theorem claim_C9_coinbase (height : Nat) (extra : List Nat)
    (hh : height < 256 ^ 255) :
    Input.coinbase height extra =
      some ⟨nullprev, 4294967295,
        (encoded_height height).length :: (encoded_height height ++ extra),
        0⟩ ∧
    unpackLE (encoded_height height) = height ∧
    (∀ d ∈ encoded_height height, d < 256) ∧
    (encoded_height height).getLast? ≠ some 0 ∧
    (height = 0 → encoded_height height = []) := by
  have hle : (encoded_height height).length ≤ 255 :=
    encoded_height_length_le 255 height hh
  have h256 : (encoded_height height).length < 256 := by omega
  have hp : packFW 1 (encoded_height height).length =
      some [(encoded_height height).length] := by
    simp [packFW, h256, leBytes, Nat.mod_eq_of_lt h256]
  refine ⟨?_, unpackLE_encoded_height height, encoded_height_bytes_lt height,
    encoded_height_getLast height, fun h0 => h0 ▸ encoded_height_zero⟩
  simp only [Input.coinbase]
  rw [hp]
  rfl

/-- `encoded_height` at exact powers of 256 grows one byte per power. -/
theorem encoded_height_pow :
    ∀ n, encoded_height (256 ^ (n + 1)) = 0 :: encoded_height (256 ^ n) := by
  intro n
  rw [encoded_height_pos _ (by positivity)]
  have h1 : 256 ^ (n + 1) % 256 = 0 := by
    rw [pow_succ]
    simp [Nat.mul_mod_left]
  have h2 : 256 ^ (n + 1) / 256 = 256 ^ n := by
    rw [pow_succ]
    exact Nat.mul_div_cancel _ (by norm_num)
  rw [h1, h2]

theorem encoded_height_pow_length :
    ∀ n, (encoded_height (256 ^ n)).length = n + 1 := by
  intro n
  induction n with
  | zero =>
    rw [pow_zero, encoded_height_pos 1 (by norm_num)]
    norm_num
    rw [encoded_height_zero]
  | succ n ih =>
    rw [encoded_height_pow n]
    simp [ih]

/-- Counterexample to C9 as stated: at height `256 ^ 255` (256 encoded
bytes) the length-byte `pack("B", …)` overflows and `Input.coinbase`
returns no `Input` at all. -/
theorem coinbase_none_of_long (height : Nat)
    (hl : 256 ≤ (encoded_height height).length) :
    Input.coinbase height [] = none := by
  have hlen : packFW 1 (encoded_height height).length = none := by
    simp only [packFW, pow_one, ite_eq_right_iff]
    omega
  simp only [Input.coinbase]
  rw [hlen]

theorem claim_C9_counterexample : Input.coinbase (256 ^ 255) [] = none :=
  coinbase_none_of_long (256 ^ 255)
    (by rw [encoded_height_pow_length 255])

theorem encoded_height_256 : encoded_height 256 = [0, 1] := by
  have h := encoded_height_pow 0
  rw [pow_one, pow_zero] at h
  rw [h, encoded_height_pos 1 (by norm_num)]
  norm_num
  rw [encoded_height_zero]

/-- Witness for the amended C9 at height 256 with a nonempty
extraScriptSig. -/
theorem claim_C9_coinbase_witness :
    256 < 256 ^ 255 ∧
    Input.coinbase 256 [171] =
      some ⟨nullprev, 4294967295, [2, 0, 1, 171], 0⟩ := by
  refine ⟨by norm_num, ?_⟩
  have h := (claim_C9_coinbase 256 [171] (by norm_num)).1
  rw [encoded_height_256] at h
  simpa using h

/-! ## Frame and truncation lemmas for the parse loops -/

theorem take_append_le {α : Type} {l1 l2 : List α} {n : Nat}
    (h : n ≤ l1.length) : (l1 ++ l2).take n = l1.take n := by
  rw [List.take_append_eq_append_take, Nat.sub_eq_zero_of_le h]
  simp

theorem take_append_ge {α : Type} {l1 l2 : List α} {n : Nat}
    (h : l1.length ≤ n) : (l1 ++ l2).take n = l1 ++ l2.take (n - l1.length) := by
  rw [List.take_append_eq_append_take, List.take_of_length_le h]

theorem drop_append_le {α : Type} {l1 l2 : List α} {n : Nat}
    (h : n ≤ l1.length) : (l1 ++ l2).drop n = l1.drop n ++ l2 := by
  rw [List.drop_append_eq_append_drop, Nat.sub_eq_zero_of_le h]
  simp

/-- Frame/truncation lemma for the input-parsing loop: a successful run
consumes a chunk `c` (leaving `rest`), appends a list `new` of inputs fully
determined by `c`, behaves identically on `c` followed by any other tail,
and fails with `TruncatedInput` on every strict prefix of `c`. -/
theorem parse_inputs_frame :
    ∀ (n : Nat) (acc : List Input) (d : List Nat) (res : List Input)
      (rest : List Nat),
      parse_inputs acc n d = (res, rest, none) →
      ∃ c new, d = c ++ rest ∧ res = acc ++ new ∧
        (∀ (acc' : List Input) (r' : List Nat),
          parse_inputs acc' n (c ++ r') = (acc' ++ new, r', none)) ∧
        (∀ (acc' : List Input) (k : Nat), k < c.length →
          (parse_inputs acc' n (c.take k)).2.2 = some Err.TruncatedInput) := by
  intro n
  induction n with
  | zero =>
    intro acc d res rest h
    simp only [parse_inputs, Prod.mk.injEq] at h
    obtain ⟨h1, h2, -⟩ := h
    subst h1 h2
    exact ⟨[], [], by simp, by simp, fun acc' r' => by simp [parse_inputs],
      fun acc' k hk => absurd hk (by simp)⟩
  | succ n ih =>
    intro acc d res rest h
    unfold parse_inputs at h
    split at h
    · simp at h
    · rename_i prevout_idx hf1
      split at h
      · simp at h
      · rename_i ss_len d1 hv
        split at h
        · simp at h
        · rename_i seqno hf2
          have h36 : 36 ≤ d.length := by
            have h4 : ((d.drop 32).take 4).length = 4 := by
              by_contra hne
              rw [funpack_err hne] at hf1
              exact Except.noConfusion hf1
            simp only [List.length_take, List.length_drop] at h4
            omega
          have hss4 : ss_len + 4 ≤ d1.length := by
            have h4 : ((d1.drop ss_len).take 4).length = 4 := by
              by_contra hne
              rw [funpack_err hne] at hf2
              exact Except.noConfusion hf2
            simp only [List.length_take, List.length_drop] at h4
            omega
          obtain ⟨cv, hdv, hcvne, hvframe, hvtrunc⟩ := varlen_decode_frame hv
          obtain ⟨c', new', hdrest, hres, hframe', htrunc'⟩ :=
            ih (acc ++ [⟨d.take 32, prevout_idx, d1.take ss_len, seqno⟩])
              (d1.drop (ss_len + 4)) res rest h
          have hLlen : (d.take 36).length = 36 := by
            simp only [List.length_take]
            omega
          have hTlen : (d1.take (ss_len + 4)).length = ss_len + 4 := by
            simp only [List.length_take]
            omega
          have hd32 : (d.take 36).drop 32 = (d.drop 32).take 4 := by
            rw [List.drop_take]
          have E1 : ∀ Y : List Nat, (d.take 36 ++ Y).take 32 = d.take 32 := by
            intro Y
            rw [take_append_le (by rw [hLlen]; norm_num), List.take_take]
            congr 1
          have E2 : ∀ Y : List Nat,
              ((d.take 36 ++ Y).drop 32).take 4 = (d.drop 32).take 4 := by
            intro Y
            rw [drop_append_le (by rw [hLlen]; norm_num), hd32,
              take_append_le (by simp only [List.length_take, List.length_drop]; omega),
              List.take_take]
            congr 1
          have E3 : ∀ Y : List Nat, (d.take 36 ++ Y).drop 36 = Y :=
            fun Y => List.drop_left' hLlen
          have E4 : ∀ X : List Nat,
              (d1.take (ss_len + 4) ++ X).take ss_len = d1.take ss_len := by
            intro X
            rw [take_append_le (by rw [hTlen]; omega), List.take_take]
            congr 1
            omega
          have hd1s : (d1.take (ss_len + 4)).drop ss_len = (d1.drop ss_len).take 4 := by
            rw [List.drop_take]
            congr 1
            omega
          have E5 : ∀ X : List Nat,
              ((d1.take (ss_len + 4) ++ X).drop ss_len).take 4
                = (d1.drop ss_len).take 4 := by
            intro X
            rw [drop_append_le (by rw [hTlen]; omega), hd1s,
              take_append_le (by simp only [List.length_take, List.length_drop]; omega),
              List.take_take]
            congr 1
          have E6 : ∀ X : List Nat,
              (d1.take (ss_len + 4) ++ X).drop (ss_len + 4) = X :=
            fun X => List.drop_left' hTlen
          have ESTEP : ∀ (acc2 : List Input) (X : List Nat),
              parse_inputs acc2 (n + 1)
                (d.take 36 ++ (cv ++ (d1.take (ss_len + 4) ++ X)))
              = parse_inputs (acc2 ++ [⟨d.take 32, prevout_idx,
                  d1.take ss_len, seqno⟩]) n X := by
            intro acc2 X
            simp [parse_inputs, E1 (cv ++ (d1.take (ss_len + 4) ++ X)),
              E2 (cv ++ (d1.take (ss_len + 4) ++ X)),
              E3 (cv ++ (d1.take (ss_len + 4) ++ X)),
              E4 X, E5 X, E6 X, hf1, hvframe, hf2]
          refine ⟨d.take 36 ++ (cv ++ (d1.take (ss_len + 4) ++ c')),
            ⟨d.take 32, prevout_idx, d1.take ss_len, seqno⟩ :: new',
            ?_, ?_, ?_, ?_⟩
          · conv_lhs => rw [← List.take_append_drop 36 d]
            rw [hdv]
            conv_lhs => rw [← List.take_append_drop (ss_len + 4) d1]
            rw [hdrest]
            simp
          · simp [hres]
          · intro acc' r'
            rw [show (d.take 36 ++ (cv ++ (d1.take (ss_len + 4) ++ c'))) ++ r'
                = d.take 36 ++ (cv ++ (d1.take (ss_len + 4) ++ (c' ++ r'))) by
              simp]
            rw [ESTEP, hframe']
            simp
          · intro acc' k hk
            simp only [List.length_append, hLlen, hTlen] at hk
            rcases Nat.lt_or_ge k 36 with hA | hA
            · have htk : (d.take 36 ++ (cv ++ (d1.take (ss_len + 4)
                  ++ c'))).take k = d.take k := by
                rw [take_append_le (by rw [hLlen]; omega), List.take_take]
                congr 1
                omega
              rw [htk]
              have hfe : funpack 4 (((d.take k).drop 32).take 4)
                  = .error .TruncatedInput := by
                apply funpack_err
                simp only [List.length_take, List.length_drop]
                omega
              simp [parse_inputs, hfe]
            · rcases Nat.lt_or_ge k (36 + cv.length) with hB | hB
              · have htk : (d.take 36 ++ (cv ++ (d1.take (ss_len + 4)
                    ++ c'))).take k = d.take 36 ++ cv.take (k - 36) := by
                  rw [take_append_ge (by rw [hLlen]; omega), hLlen,
                    take_append_le (by omega)]
                rw [htk]
                have hvt := hvtrunc (k - 36) (by omega)
                simp [parse_inputs, E1 (cv.take (k - 36)),
                  E2 (cv.take (k - 36)), E3 (cv.take (k - 36)), hf1, hvt]
              · rcases Nat.lt_or_ge k (36 + cv.length + (ss_len + 4)) with hC | hC
                · have htk : (d.take 36 ++ (cv ++ (d1.take (ss_len + 4)
                      ++ c'))).take k
                      = d.take 36 ++ (cv ++ d1.take (k - 36 - cv.length)) := by
                    rw [take_append_ge (by rw [hLlen]; omega), hLlen,
                      take_append_ge (by omega),
                      take_append_le (by rw [hTlen]; omega), List.take_take]
                    congr 3
                    omega
                  rw [htk]
                  have hfe : funpack 4 (((d1.take (k - 36 - cv.length)).drop
                      ss_len).take 4) = .error .TruncatedInput := by
                    apply funpack_err
                    simp only [List.length_take, List.length_drop]
                    omega
                  simp [parse_inputs, E1 (cv ++ d1.take (k - 36 - cv.length)),
                    E2 (cv ++ d1.take (k - 36 - cv.length)),
                    E3 (cv ++ d1.take (k - 36 - cv.length)), hf1, hvframe, hfe]
                · have hkd : k - 36 - cv.length - (ss_len + 4) < c'.length := by
                    omega
                  have htk : (d.take 36 ++ (cv ++ (d1.take (ss_len + 4)
                      ++ c'))).take k
                      = d.take 36 ++ (cv ++ (d1.take (ss_len + 4) ++
                          c'.take (k - 36 - cv.length - (ss_len + 4)))) := by
                    rw [take_append_ge (by rw [hLlen]; omega), hLlen,
                      take_append_ge (by omega),
                      take_append_ge (by rw [hTlen]; omega), hTlen]
                  rw [htk, ESTEP]
                  exact htrunc' _ _ hkd

/-- On an empty cursor the output loop either truncates or succeeds with an
empty remainder. -/
theorem parse_outputs_nil (acc : List Output) (m : Nat) :
    (parse_outputs acc m []).2.2 = some Err.TruncatedInput ∨
    ((parse_outputs acc m []).2.2 = none ∧
      (parse_outputs acc m []).2.1 = []) := by
  cases m with
  | zero => right; simp [parse_outputs]
  | succ m =>
    left
    have hfe : funpack 8 ([] : List Nat) = .error .TruncatedInput :=
      funpack_err (by simp)
    simp [parse_outputs, hfe]

/-- Frame/truncation lemma for the output-parsing loop.  A run that succeeds
with a *nonempty* remainder consumes a chunk `c` that fully determines the
outputs; it behaves identically on `c` followed by any tail, and on every
strict prefix of `c` it either truncates or consumes everything (an
over-long declared script length silently eats the rest of the buffer),
leaving an empty cursor. -/
theorem parse_outputs_frame :
    ∀ (n : Nat) (acc : List Output) (d : List Nat) (res : List Output)
      (rest : List Nat),
      parse_outputs acc n d = (res, rest, none) →
      rest ≠ [] →
      ∃ c new, d = c ++ rest ∧ res = acc ++ new ∧
        (∀ (acc' : List Output) (r' : List Nat),
          parse_outputs acc' n (c ++ r') = (acc' ++ new, r', none)) ∧
        (∀ (acc' : List Output) (k : Nat), k < c.length →
          (parse_outputs acc' n (c.take k)).2.2 = some Err.TruncatedInput ∨
          ((parse_outputs acc' n (c.take k)).2.2 = none ∧
            (parse_outputs acc' n (c.take k)).2.1 = [])) := by
  intro n
  induction n with
  | zero =>
    intro acc d res rest h hrest
    simp only [parse_outputs, Prod.mk.injEq] at h
    obtain ⟨h1, h2, -⟩ := h
    subst h1 h2
    exact ⟨[], [], by simp, by simp, fun acc' r' => by simp [parse_outputs],
      fun acc' k hk => absurd hk (by simp)⟩
  | succ n ih =>
    intro acc d res rest h hrest
    unfold parse_outputs at h
    split at h
    · simp at h
    · rename_i amount hf
      split at h
      · simp at h
      · rename_i ps_len d1 hv
        have h8 : 8 ≤ d.length := by
          have h4 : (d.take 8).length = 8 := by
            by_contra hne
            rw [funpack_err hne] at hf
            exact Except.noConfusion hf
          simp only [List.length_take] at h4
          omega
        obtain ⟨cv, hdv, hcvne, hvframe, hvtrunc⟩ := varlen_decode_frame hv
        obtain ⟨c', new', hdrest, hres, hframe', htrunc'⟩ :=
          ih (acc ++ [⟨amount, d1.take ps_len⟩]) (d1.drop ps_len) res rest h
            hrest
        have hps : ps_len < d1.length := by
          have hlen := congrArg List.length hdrest
          simp only [List.length_drop, List.length_append] at hlen
          have hrl : rest.length ≠ 0 := by simpa using hrest
          omega
        have hLlen : (d.take 8).length = 8 := by
          simp only [List.length_take]
          omega
        have hTlen : (d1.take ps_len).length = ps_len := by
          simp only [List.length_take]
          omega
        have E1 : ∀ Y : List Nat, (d.take 8 ++ Y).take 8 = d.take 8 := by
          intro Y
          rw [take_append_le (by rw [hLlen]), List.take_take]
          congr 1
        have E3 : ∀ Y : List Nat, (d.take 8 ++ Y).drop 8 = Y :=
          fun Y => List.drop_left' hLlen
        have E4 : ∀ X : List Nat,
            (d1.take ps_len ++ X).take ps_len = d1.take ps_len := by
          intro X
          rw [take_append_le (by rw [hTlen]), List.take_take]
          congr 1
          omega
        have E6 : ∀ X : List Nat, (d1.take ps_len ++ X).drop ps_len = X :=
          fun X => List.drop_left' hTlen
        have ESTEP : ∀ (acc2 : List Output) (X : List Nat),
            parse_outputs acc2 (n + 1)
              (d.take 8 ++ (cv ++ (d1.take ps_len ++ X)))
            = parse_outputs (acc2 ++ [⟨amount, d1.take ps_len⟩]) n X := by
          intro acc2 X
          have hfY : funpack 8 ((d.take 8 ++ (cv ++ (d1.take ps_len ++
              X))).take 8) = .ok amount := by
            rw [E1]
            exact hf
          simp [parse_outputs, hfY, E3 (cv ++ (d1.take ps_len ++ X)),
            E4 X, E6 X, hvframe]
        refine ⟨d.take 8 ++ (cv ++ (d1.take ps_len ++ c')),
          ⟨amount, d1.take ps_len⟩ :: new', ?_, ?_, ?_, ?_⟩
        · conv_lhs => rw [← List.take_append_drop 8 d]
          rw [hdv]
          conv_lhs => rw [← List.take_append_drop ps_len d1]
          rw [hdrest]
          simp
        · simp [hres]
        · intro acc' r'
          rw [show (d.take 8 ++ (cv ++ (d1.take ps_len ++ c'))) ++ r'
              = d.take 8 ++ (cv ++ (d1.take ps_len ++ (c' ++ r'))) by simp]
          rw [ESTEP, hframe']
          simp
        · intro acc' k hk
          simp only [List.length_append, hLlen, hTlen] at hk
          rcases Nat.lt_or_ge k 8 with hA | hA
          · left
            have htk : (d.take 8 ++ (cv ++ (d1.take ps_len ++ c'))).take k
                = d.take k := by
              rw [take_append_le (by rw [hLlen]; omega), List.take_take]
              congr 1
              omega
            rw [htk]
            have hfe : funpack 8 ((d.take k).take 8) = .error .TruncatedInput := by
              apply funpack_err
              simp only [List.length_take]
              omega
            simp [parse_outputs, hfe]
          · rcases Nat.lt_or_ge k (8 + cv.length) with hB | hB
            · left
              have htk : (d.take 8 ++ (cv ++ (d1.take ps_len ++ c'))).take k
                  = d.take 8 ++ cv.take (k - 8) := by
                rw [take_append_ge (by rw [hLlen]; omega), hLlen,
                  take_append_le (by omega)]
              rw [htk]
              have hvt := hvtrunc (k - 8) (by omega)
              have hfY : funpack 8 ((d.take 8 ++ cv.take (k - 8)).take 8)
                  = .ok amount := by
                rw [E1]
                exact hf
              simp [parse_outputs, hfY, E3 (cv.take (k - 8)), hvt]
            · rcases Nat.lt_or_ge k (8 + cv.length + ps_len) with hC | hC
              · have htk : (d.take 8 ++ (cv ++ (d1.take ps_len ++ c'))).take k
                    = d.take 8 ++ (cv ++ d1.take (k - 8 - cv.length)) := by
                  rw [take_append_ge (by rw [hLlen]; omega), hLlen,
                    take_append_ge (by omega),
                    take_append_le (by rw [hTlen]; omega), List.take_take]
                  congr 3
                  omega
                have hdrop0 : (d1.take (k - 8 - cv.length)).drop ps_len = [] := by
                  apply List.drop_of_length_le
                  simp only [List.length_take]
                  omega
                have hfY : funpack 8 ((d.take 8 ++ (cv ++ d1.take
                    (k - 8 - cv.length))).take 8) = .ok amount := by
                  rw [E1]
                  exact hf
                have heval : parse_outputs acc' (n + 1)
                    (d.take 8 ++ (cv ++ d1.take (k - 8 - cv.length)))
                    = parse_outputs (acc' ++ [⟨amount,
                        (d1.take (k - 8 - cv.length)).take ps_len⟩]) n [] := by
                  simp [parse_outputs, hfY, E3 (cv ++ d1.take (k - 8 - cv.length)),
                    hvframe, hdrop0]
                rw [htk, heval]
                exact parse_outputs_nil _ n
              · have hkd : k - 8 - cv.length - ps_len < c'.length := by omega
                have htk : (d.take 8 ++ (cv ++ (d1.take ps_len ++ c'))).take k
                    = d.take 8 ++ (cv ++ (d1.take ps_len ++
                        c'.take (k - 8 - cv.length - ps_len))) := by
                  rw [take_append_ge (by rw [hLlen]; omega), hLlen,
                    take_append_ge (by omega),
                    take_append_ge (by rw [hTlen]; omega), hTlen]
                rw [htk, ESTEP]
                exact htrunc' _ _ hkd

/-! ## Claim C5 (truncation) -/

/-- C5: truncating a parseable buffer anywhere strictly inside (any nonempty
strict prefix) makes parse fail with `TruncatedInput` — no record is ever
returned for a buffer cut off mid-field, and in particular no record with a
scriptSig shorter than its declared length. -/
theorem claim_C5_truncation (t t0 t' : Transaction) (b : List Nat) (k : Nat)
    (hsucc : t.disassemble b false none = (t', none))
    (hk0 : 0 < k) (hkb : k < b.length) :
    (t0.disassemble (b.take k) false none).2 = some Err.TruncatedInput := by
  have hbne : b ≠ [] := by
    intro hcon
    rw [hcon] at hkb
    simp at hkb
  unfold Transaction.disassemble at hsucc
  simp only [hbne, if_false, ite_false] at hsucc
  split at hsucc
  · simp at hsucc
  · rename_i version hf1
    split at hsucc
    · simp at hsucc
    · rename_i input_count d1 hv1
      split at hsucc
      · simp at hsucc
      · rename_i items d2 hpi
        split at hsucc
        · simp at hsucc
        · rename_i output_count d3 hv2
          split at hsucc
          · simp at hsucc
          · rename_i oitems d4 hpo
            split at hsucc
            · simp at hsucc
            · rename_i lk hf4
              split at hsucc
              case isFalse => simp at hsucc
              rename_i hd4len
              -- collect phase decompositions
              have h4b : 4 ≤ b.length := by
                have h4 : (b.take 4).length = 4 := by
                  by_contra hne
                  rw [funpack_err hne] at hf1
                  exact Except.noConfusion hf1
                simp only [List.length_take] at h4
                omega
              have hVlen : (b.take 4).length = 4 := by
                simp only [List.length_take]
                omega
              have hVne : b.take 4 ≠ [] := by
                intro hcon
                rw [hcon] at hVlen
                simp at hVlen
              obtain ⟨cv1, hdv1, hcv1ne, frame1, trunc1⟩ := varlen_decode_frame hv1
              obtain ⟨ci, newi, hd1, -, frameI, truncI⟩ :=
                parse_inputs_frame input_count [] d1 items d2 hpi
              obtain ⟨cv2, hdv2, hcv2ne, frame2, trunc2⟩ := varlen_decode_frame hv2
              have hd4ne : d4 ≠ [] := by
                intro hcon
                rw [hcon] at hd4len
                simp at hd4len
              obtain ⟨co, newo, hd3, -, frameO, truncO⟩ :=
                parse_outputs_frame output_count [] d3 oitems d4 hpo hd4ne
              have hb : b = b.take 4 ++ (cv1 ++ (ci ++ (cv2 ++ (co ++ d4)))) := by
                conv_lhs => rw [← List.take_append_drop 4 b]
                rw [hdv1, hd1, hdv2, hd3]
              have hlenb : b.length = 4 + (cv1.length + (ci.length +
                  (cv2.length + (co.length + 4)))) := by
                have hc := congrArg List.length hb
                simp only [List.length_append, hVlen, hd4len] at hc
                exact hc
              have FV1 : ∀ Y : List Nat, (b.take 4 ++ Y).take 4 = b.take 4 := by
                intro Y
                rw [take_append_le (by rw [hVlen]), List.take_take]
                congr 1
              have FV2 : ∀ Y : List Nat, (b.take 4 ++ Y).drop 4 = Y :=
                fun Y => List.drop_left' hVlen
              have hKne : b.take k ≠ [] := by
                intro hcon
                have hlg := congrArg List.length hcon
                rw [List.length_take] at hlg
                simp only [List.length_nil] at hlg
                rw [hlenb] at hlg
                omega
              rw [hlenb] at hkb
              rcases Nat.lt_or_ge k 4 with hA | hA
              · -- truncated inside the version field
                have hfeA : funpack 4 ((b.take k).take 4) =
                    .error .TruncatedInput := by
                  apply funpack_err
                  simp only [List.length_take]
                  omega
                unfold Transaction.disassemble
                simp [hKne, hfeA]
              · rcases Nat.lt_or_ge k (4 + cv1.length) with hB | hB
                · -- truncated inside the input-count varint
                  have htk : b.take k = b.take 4 ++ cv1.take (k - 4) := by
                    conv_lhs => rw [hb]
                    rw [take_append_ge (by rw [hVlen]; omega), hVlen,
                      take_append_le (by omega)]
                  have hvt := trunc1 (k - 4) (by omega)
                  unfold Transaction.disassemble
                  rw [htk]
                  simp [hVne, FV1, hf1, FV2, hvt]
                · rcases Nat.lt_or_ge k (4 + cv1.length + ci.length) with hC | hC
                  · -- truncated inside the inputs
                    have htk : b.take k = b.take 4 ++ (cv1 ++
                        ci.take (k - 4 - cv1.length)) := by
                      conv_lhs => rw [hb]
                      rw [take_append_ge (by rw [hVlen]; omega), hVlen,
                        take_append_ge (by omega),
                        take_append_le (by omega)]
                    rcases hPIK : parse_inputs [] input_count
                        (ci.take (k - 4 - cv1.length)) with ⟨itemsK, dK, oeK⟩
                    have htr := truncI [] (k - 4 - cv1.length) (by omega)
                    rw [hPIK] at htr
                    simp only at htr
                    subst htr
                    unfold Transaction.disassemble
                    rw [htk]
                    simp [hVne, FV1, hf1, FV2, frame1, hPIK]
                  · rcases Nat.lt_or_ge k (4 + cv1.length + ci.length +
                        cv2.length) with hD | hD
                    · -- truncated inside the output-count varint
                      have htk : b.take k = b.take 4 ++ (cv1 ++ (ci ++
                          cv2.take (k - 4 - cv1.length - ci.length))) := by
                        conv_lhs => rw [hb]
                        rw [take_append_ge (by rw [hVlen]; omega), hVlen,
                          take_append_ge (by omega),
                          take_append_ge (by omega),
                          take_append_le (by omega)]
                      have hvt := trunc2 (k - 4 - cv1.length - ci.length)
                        (by omega)
                      unfold Transaction.disassemble
                      rw [htk]
                      simp [hVne, FV1, hf1, FV2, frame1, frameI, hvt]
                    · rcases Nat.lt_or_ge k (4 + cv1.length + ci.length +
                          cv2.length + co.length) with hE | hE
                      · -- truncated inside the outputs
                        have htk : b.take k = b.take 4 ++ (cv1 ++ (ci ++
                            (cv2 ++ co.take (k - 4 - cv1.length - ci.length -
                              cv2.length)))) := by
                          conv_lhs => rw [hb]
                          rw [take_append_ge (by rw [hVlen]; omega), hVlen,
                            take_append_ge (by omega),
                            take_append_ge (by omega),
                            take_append_ge (by omega),
                            take_append_le (by omega)]
                        rcases hPOK : parse_outputs [] output_count
                            (co.take (k - 4 - cv1.length - ci.length -
                              cv2.length)) with ⟨oitemsK, dOK, oeOK⟩
                        rcases truncO [] (k - 4 - cv1.length - ci.length -
                            cv2.length) (by omega) with htr | ⟨hnone, hempty⟩
                        · rw [hPOK] at htr
                          simp only at htr
                          subst htr
                          unfold Transaction.disassemble
                          rw [htk]
                          simp [hVne, FV1, hf1, FV2, frame1, frameI, frame2,
                            hPOK]
                        · rw [hPOK] at hnone hempty
                          simp only at hnone hempty
                          subst hnone hempty
                          have hfe4 : funpack 4 ([] : List Nat) =
                              .error .TruncatedInput := funpack_err (by simp)
                          unfold Transaction.disassemble
                          rw [htk]
                          simp [hVne, FV1, hf1, FV2, frame1, frameI, frame2,
                            hPOK, hfe4]
                      · -- truncated inside the lockTime field
                        have htk : b.take k = b.take 4 ++ (cv1 ++ (ci ++
                            (cv2 ++ (co ++ d4.take (k - 4 - cv1.length -
                              ci.length - cv2.length - co.length))))) := by
                          conv_lhs => rw [hb]
                          rw [take_append_ge (by rw [hVlen]; omega), hVlen,
                            take_append_ge (by omega),
                            take_append_ge (by omega),
                            take_append_ge (by omega),
                            take_append_ge (by omega)]
                        have hfeF : funpack 4 ((d4.take (k - 4 - cv1.length -
                            ci.length - cv2.length - co.length)).take 4) =
                            .error .TruncatedInput := by
                          apply funpack_err
                          simp only [List.length_take]
                          omega
                        unfold Transaction.disassemble
                        rw [htk]
                        simp [hVne, FV1, hf1, FV2, frame1, frameI, frame2,
                          frameO, hfeF]

def C5b : List Nat :=
  [1, 0, 0, 0] ++ [1] ++ List.replicate 32 0 ++ [7, 0, 0, 0] ++ [0] ++
    [5, 0, 0, 0] ++ [0] ++ [9, 0, 0, 0]

/-- Witness for C5: a 51-byte parseable buffer truncated to 45 bytes
(inside the first input's sequence-number field) fails with
`TruncatedInput`. -/
theorem claim_C5_truncation_witness :
    0 < 45 ∧ 45 < C5b.length ∧
    ((Transaction.init [] none).disassemble (C5b.take 45) false none).2 =
      some Err.TruncatedInput := by
  refine ⟨by decide, by decide, ?_⟩
  match hs : (Transaction.init [] none).disassemble C5b false none with
  | (tS, some e) =>
    have h2 : ((Transaction.init [] none).disassemble C5b false none).2 =
        none := by decide
    rw [hs] at h2
    exact Option.noConfusion h2
  | (tS, none) =>
    exact claim_C5_truncation (Transaction.init [] none)
      (Transaction.init [] none) tS C5b 45 hs (by decide) (by decide)

/-! ## Claim C7 (`MalformedInput`, corrected) -/

/-- C7 (amended): parse fails with `MalformedInput` exactly when nonzero
bytes remain after the 4-byte lockTime — equivalently, exactly when the
buffer is a successfully parseable buffer followed by at least one trailing
byte.  (The unamended claim also required a zero input count to fail with
`MalformedInput`; in fact a zero input count is accepted and parses to a
record with no inputs — see the counterexample.) -/
theorem claim_C7_malformed (t : Transaction) (b : List Nat) (hb : b ≠ []) :
    (t.disassemble b false none).2 = some Err.MalformedInput ↔
    ∃ p extra, p ≠ [] ∧ extra ≠ [] ∧ b = p ++ extra ∧
      (t.disassemble p false none).2 = none := by
  constructor
  · intro hm
    rcases hfull : t.disassemble b false none with ⟨tX, oeX⟩
    rw [hfull] at hm
    change oeX = some Err.MalformedInput at hm
    subst hm
    unfold Transaction.disassemble at hfull
    simp only [hb, if_false, ite_false] at hfull
    split at hfull
    · rename_i e1 hf
      cases funpack_error_eq hf
      simp only [Prod.mk.injEq, Option.some.injEq] at hfull
      exact Err.noConfusion hfull.2
    · rename_i version hf1
      split at hfull
      · rename_i e1 hv
        cases varlen_decode_error_eq hv
        simp only [Prod.mk.injEq, Option.some.injEq] at hfull
        exact Err.noConfusion hfull.2
      · rename_i input_count d1 hv1
        split at hfull
        · rename_i items x e1 hpi
          cases parse_inputs_error_eq input_count [] items d1 x e1 hpi
          simp only [Prod.mk.injEq, Option.some.injEq] at hfull
          exact Err.noConfusion hfull.2
        · rename_i items d2 hpi
          split at hfull
          · rename_i e1 hv
            cases varlen_decode_error_eq hv
            simp only [Prod.mk.injEq, Option.some.injEq] at hfull
            exact Err.noConfusion hfull.2
          · rename_i output_count d3 hv2
            split at hfull
            · rename_i oitems x e1 hpo
              cases parse_outputs_error_eq output_count [] oitems d3 x e1 hpo
              simp only [Prod.mk.injEq, Option.some.injEq] at hfull
              exact Err.noConfusion hfull.2
            · rename_i oitems d4 hpo
              split at hfull
              · rename_i e1 hf4
                cases funpack_error_eq hf4
                simp only [Prod.mk.injEq, Option.some.injEq] at hfull
                exact Err.noConfusion hfull.2
              · rename_i lk hf4
                split at hfull
                · simp at hfull
                · rename_i hd4len
                  -- trailing data: build the decomposition
                  have h44 : (d4.take 4).length = 4 := by
                    by_contra hne
                    rw [funpack_err hne] at hf4
                    exact Except.noConfusion hf4
                  have h4le : 4 ≤ d4.length := by
                    simp only [List.length_take] at h44
                    omega
                  have hd4gt : 4 < d4.length := by
                    rcases Nat.lt_or_ge 4 d4.length with hgt | hge
                    · exact hgt
                    · exact absurd (by omega : d4.length = 4) hd4len
                  have hd4ne : d4 ≠ [] := by
                    intro hcon
                    rw [hcon] at hd4gt
                    simp at hd4gt
                  have h4b : 4 ≤ b.length := by
                    have h4 : (b.take 4).length = 4 := by
                      by_contra hne
                      rw [funpack_err hne] at hf1
                      exact Except.noConfusion hf1
                    simp only [List.length_take] at h4
                    omega
                  have hVlen : (b.take 4).length = 4 := by
                    simp only [List.length_take]
                    omega
                  have hVne : b.take 4 ≠ [] := by
                    intro hcon
                    rw [hcon] at hVlen
                    simp at hVlen
                  obtain ⟨cv1, hdv1, -, frame1, -⟩ := varlen_decode_frame hv1
                  obtain ⟨ci, newi, hd1, -, frameI, -⟩ :=
                    parse_inputs_frame input_count [] d1 items d2 hpi
                  obtain ⟨cv2, hdv2, -, frame2, -⟩ := varlen_decode_frame hv2
                  obtain ⟨co, newo, hd3, -, frameO, -⟩ :=
                    parse_outputs_frame output_count [] d3 oitems d4 hpo hd4ne
                  have hbdec : b = b.take 4 ++ (cv1 ++ (ci ++ (cv2 ++
                      (co ++ d4)))) := by
                    conv_lhs => rw [← List.take_append_drop 4 b]
                    rw [hdv1, hd1, hdv2, hd3]
                  have FV1 : ∀ Y : List Nat, (b.take 4 ++ Y).take 4 =
                      b.take 4 := by
                    intro Y
                    rw [take_append_le (by rw [hVlen]), List.take_take]
                    congr 1
                  have FV2 : ∀ Y : List Nat, (b.take 4 ++ Y).drop 4 = Y :=
                    fun Y => List.drop_left' hVlen
                  have e44 : (d4.take 4).take 4 = d4.take 4 := by
                    rw [List.take_take]
                    congr 1
                  refine ⟨b.take 4 ++ (cv1 ++ (ci ++ (cv2 ++ (co ++
                      d4.take 4)))), d4.drop 4, by simp [hVne], ?_, ?_, ?_⟩
                  · intro hcon
                    have := congrArg List.length hcon
                    simp only [List.length_drop, List.length_nil] at this
                    omega
                  · conv_lhs => rw [hbdec]
                    conv_lhs =>
                      rw [show d4 = d4.take 4 ++ d4.drop 4 from
                        (List.take_append_drop 4 d4).symm]
                    simp
                  · unfold Transaction.disassemble
                    simp [hVne, FV1, hf1, FV2, frame1, frameI, frame2,
                      frameO, e44, hf4, h44]
  · rintro ⟨p, extra, hpne, hexne, hbeq, hpsucc⟩
    rcases hfull : t.disassemble p false none with ⟨tP, oeP⟩
    rw [hfull] at hpsucc
    change oeP = none at hpsucc
    subst hpsucc
    unfold Transaction.disassemble at hfull
    simp only [hpne, if_false, ite_false] at hfull
    split at hfull
    · simp at hfull
    · rename_i version hf1
      split at hfull
      · simp at hfull
      · rename_i input_count d1 hv1
        split at hfull
        · simp at hfull
        · rename_i items d2 hpi
          split at hfull
          · simp at hfull
          · rename_i output_count d3 hv2
            split at hfull
            · simp at hfull
            · rename_i oitems d4 hpo
              split at hfull
              · simp at hfull
              · rename_i lk hf4
                split at hfull
                case isFalse => simp at hfull
                rename_i hd4len
                have h4p : 4 ≤ p.length := by
                  have h4 : (p.take 4).length = 4 := by
                    by_contra hne
                    rw [funpack_err hne] at hf1
                    exact Except.noConfusion hf1
                  simp only [List.length_take] at h4
                  omega
                have hVlen : (p.take 4).length = 4 := by
                  simp only [List.length_take]
                  omega
                have hVne : p.take 4 ≠ [] := by
                  intro hcon
                  rw [hcon] at hVlen
                  simp at hVlen
                have hd4ne : d4 ≠ [] := by
                  intro hcon
                  rw [hcon] at hd4len
                  simp at hd4len
                obtain ⟨cv1, hdv1, -, frame1, -⟩ := varlen_decode_frame hv1
                obtain ⟨ci, newi, hd1, -, frameI, -⟩ :=
                  parse_inputs_frame input_count [] d1 items d2 hpi
                obtain ⟨cv2, hdv2, -, frame2, -⟩ := varlen_decode_frame hv2
                obtain ⟨co, newo, hd3, -, frameO, -⟩ :=
                  parse_outputs_frame output_count [] d3 oitems d4 hpo hd4ne
                have hpdec : p = p.take 4 ++ (cv1 ++ (ci ++ (cv2 ++
                    (co ++ d4)))) := by
                  conv_lhs => rw [← List.take_append_drop 4 p]
                  rw [hdv1, hd1, hdv2, hd3]
                have FV1 : ∀ Y : List Nat, (p.take 4 ++ Y).take 4 =
                    p.take 4 := by
                  intro Y
                  rw [take_append_le (by rw [hVlen]), List.take_take]
                  congr 1
                have FV2 : ∀ Y : List Nat, (p.take 4 ++ Y).drop 4 = Y :=
                  fun Y => List.drop_left' hVlen
                have eF4 : (d4 ++ extra).take 4 = d4.take 4 :=
                  take_append_le (by rw [hd4len])
                have hexl : extra.length ≠ 0 := by simpa using hexne
                have hlenne : ¬((d4 ++ extra).length = 4) := by
                  simp only [List.length_append, hd4len]
                  omega
                have hbdec : b = p.take 4 ++ (cv1 ++ (ci ++ (cv2 ++
                    (co ++ (d4 ++ extra))))) := by
                  rw [hbeq]
                  conv_lhs => rw [hpdec]
                  simp
                rw [hbdec]
                unfold Transaction.disassemble
                simp [hVne, FV1, hf1, FV2, frame1, frameI, frame2, frameO,
                  eF4, hf4, hlenne, hd4len, hexl]

/-- A zero-input-count buffer (version 1, no inputs, no outputs,
lockTime 0). -/
def C7bz : List Nat := [1, 0, 0, 0, 0, 0, 0, 0, 0, 0]

/-- Counterexample to C7 as stated: a buffer whose decoded input count is
zero parses *successfully* (no `MalformedInput`, a record is produced with
an empty input list), while a parseable buffer with one trailing byte does
fail with `MalformedInput`. -/
theorem claim_C7_counterexample :
    ((Transaction.init [] none).disassemble C7bz false none).2 = none ∧
    ((Transaction.init [] none).disassemble C7bz false none).1.inputs = [] ∧
    ((Transaction.init [] none).disassemble (C7bz ++ [0]) false none).2 =
      some Err.MalformedInput := by decide

/-- Witness for the amended C7 at a concrete buffer with trailing data. -/
theorem claim_C7_malformed_witness :
    C7bz ++ [0] ≠ [] ∧
    (∃ p extra, p ≠ [] ∧ extra ≠ [] ∧ C7bz ++ [0] = p ++ extra ∧
      ((Transaction.init [] none).disassemble p false none).2 = none) := by
  refine ⟨by decide, ?_⟩
  exact (claim_C7_malformed (Transaction.init [] none) (C7bz ++ [0])
    (by decide)).mp (by decide)

end Cryptokit
